import Mathlib

/-!
Verification of the RoadMigrate migration engine (`src/roadmigrate/migrate.py`)
against its natural-language specification.

The Python module is shallowly embedded: dataclasses become structures, the
dict of registered migrations becomes an association list, machine-level
hashing (`hashlib.md5`) is implemented over `Nat` bytes, zero-argument
callables and the backend handler are modelled by their observable behaviour
(`Except String Unit`: return normally or raise with a message), and wall-clock
values (`datetime.now()`, timing) are passed in as explicit parameters.
-/

/-! ## MD5 (`hashlib.md5(...).hexdigest()`), over `Nat` bytes -/

/-- 2^32, the word modulus of MD5. -/
def w32 : Nat := 4294967296

/-- Left-rotate a 32-bit word (a `Nat` below `w32`) by `s` places. -/
def rotl32 (x s : Nat) : Nat := ((x * 2 ^ s) % w32) + (x / 2 ^ (32 - s))

/-- MD5 round function F. -/
def md5F (b c d : Nat) : Nat := (b &&& c) ||| ((b ^^^ 0xffffffff) &&& d)

/-- MD5 round function G. -/
def md5G (b c d : Nat) : Nat := (d &&& b) ||| ((d ^^^ 0xffffffff) &&& c)

/-- MD5 round function H. -/
def md5H (b c d : Nat) : Nat := b ^^^ c ^^^ d

/-- MD5 round function I. -/
def md5I (b c d : Nat) : Nat := c ^^^ (b ||| (d ^^^ 0xffffffff))

/-- The 64 MD5 sine-derived constants. -/
def md5K : List Nat :=
  [0xd76aa478, 0xe8c7b756, 0x242070db, 0xc1bdceee,
   0xf57c0faf, 0x4787c62a, 0xa8304613, 0xfd469501,
   0x698098d8, 0x8b44f7af, 0xffff5bb1, 0x895cd7be,
   0x6b901122, 0xfd987193, 0xa679438e, 0x49b40821,
   0xf61e2562, 0xc040b340, 0x265e5a51, 0xe9b6c7aa,
   0xd62f105d, 0x02441453, 0xd8a1e681, 0xe7d3fbc8,
   0x21e1cde6, 0xc33707d6, 0xf4d50d87, 0x455a14ed,
   0xa9e3e905, 0xfcefa3f8, 0x676f02d9, 0x8d2a4c8a,
   0xfffa3942, 0x8771f681, 0x6d9d6122, 0xfde5380c,
   0xa4beea44, 0x4bdecfa9, 0xf6bb4b60, 0xbebfbc70,
   0x289b7ec6, 0xeaa127fa, 0xd4ef3085, 0x04881d05,
   0xd9d4d039, 0xe6db99e5, 0x1fa27cf8, 0xc4ac5665,
   0xf4292244, 0x432aff97, 0xab9423a7, 0xfc93a039,
   0x655b59c3, 0x8f0ccc92, 0xffeff47d, 0x85845dd1,
   0x6fa87e4f, 0xfe2ce6e0, 0xa3014314, 0x4e0811a1,
   0xf7537e82, 0xbd3af235, 0x2ad7d2bb, 0xeb86d391]

/-- The 64 MD5 per-round shift amounts. -/
def md5S : List Nat :=
  [7, 12, 17, 22, 7, 12, 17, 22, 7, 12, 17, 22, 7, 12, 17, 22,
   5, 9, 14, 20, 5, 9, 14, 20, 5, 9, 14, 20, 5, 9, 14, 20,
   4, 11, 16, 23, 4, 11, 16, 23, 4, 11, 16, 23, 4, 11, 16, 23,
   6, 10, 15, 21, 6, 10, 15, 21, 6, 10, 15, 21, 6, 10, 15, 21]

/-- Little-endian 32-bit word number `i` of a 64-byte block. -/
def leWord (block : List Nat) (i : Nat) : Nat :=
  block.getD (4 * i) 0 + block.getD (4 * i + 1) 0 * 256 +
    block.getD (4 * i + 2) 0 * 65536 + block.getD (4 * i + 3) 0 * 16777216

/-- One MD5 round (round index `i`, state `(a, b, c, d)`). -/
def md5Round (block : List Nat) (st : Nat × Nat × Nat × Nat) (i : Nat) :
    Nat × Nat × Nat × Nat :=
  let a := st.1
  let b := st.2.1
  let c := st.2.2.1
  let d := st.2.2.2
  let f := if i < 16 then md5F b c d
           else if i < 32 then md5G b c d
           else if i < 48 then md5H b c d
           else md5I b c d
  let g := if i < 16 then i
           else if i < 32 then (5 * i + 1) % 16
           else if i < 48 then (3 * i + 5) % 16
           else (7 * i) % 16
  let tmp := (f + a + md5K.getD i 0 + leWord block g) % w32
  (d, (b + rotl32 tmp (md5S.getD i 0)) % w32, b, c)

/-- Process one 64-byte block of an MD5 computation. -/
def md5Block (st : Nat × Nat × Nat × Nat) (block : List Nat) :
    Nat × Nat × Nat × Nat :=
  let r := (List.range 64).foldl (md5Round block) st
  ((st.1 + r.1) % w32, (st.2.1 + r.2.1) % w32,
   (st.2.2.1 + r.2.2.1) % w32, (st.2.2.2 + r.2.2.2) % w32)

/-- `k` bytes of `n`, little-endian. -/
def leBytes : Nat → Nat → List Nat
  | 0, _ => []
  | k + 1, n => n % 256 :: leBytes k (n / 256)

/-- MD5 padding: append `0x80`, zero bytes to 56 mod 64, then the 64-bit
little-endian bit length of the message. -/
def md5Pad (msg : List Nat) : List Nat :=
  let len := msg.length
  msg ++ 0x80 :: List.replicate ((120 - (len + 1) % 64) % 64) 0 ++
    leBytes 8 ((8 * len) % 18446744073709551616)

/-- Split a byte list into consecutive 64-byte chunks (fuelled so that the
recursion is structural and hence kernel-evaluable). -/
def chunksAux : Nat → List Nat → List (List Nat)
  | 0, _ => []
  | _, [] => []
  | fuel + 1, l => l.take 64 :: chunksAux fuel (l.drop 64)

/-- Split a byte list into consecutive 64-byte chunks. -/
def chunks64 (l : List Nat) : List (List Nat) := chunksAux l.length l

/-- The 16-byte MD5 digest of a byte list. -/
def md5Digest (msg : List Nat) : List Nat :=
  let st := (chunks64 (md5Pad msg)).foldl md5Block
    (0x67452301, 0xefcdab89, 0x98badcfe, 0x10325476)
  leBytes 4 st.1 ++ leBytes 4 st.2.1 ++ leBytes 4 st.2.2.1 ++ leBytes 4 st.2.2.2

/-- Lower-case hexadecimal digit for a value below 16. -/
def hexDigit (n : Nat) : Char :=
  if n < 10 then Char.ofNat (48 + n) else Char.ofNat (87 + n)

/-- Two-character lower-case hexadecimal rendering of one byte. -/
def byteHex (b : Nat) : List Char := [hexDigit (b / 16), hexDigit (b % 16)]

/-- UTF-8 encoding of one character, as `str.encode()` produces. -/
def utf8Bytes (c : Char) : List Nat :=
  let n := c.toNat
  if n < 0x80 then [n]
  else if n < 0x800 then
    [0xc0 ||| (n >>> 6), 0x80 ||| (n &&& 0x3f)]
  else if n < 0x10000 then
    [0xe0 ||| (n >>> 12), 0x80 ||| ((n >>> 6) &&& 0x3f), 0x80 ||| (n &&& 0x3f)]
  else
    [0xf0 ||| (n >>> 18), 0x80 ||| ((n >>> 12) &&& 0x3f),
     0x80 ||| ((n >>> 6) &&& 0x3f), 0x80 ||| (n &&& 0x3f)]

/-- The bytes of `s.encode()`. -/
def strBytes (s : String) : List Nat := (s.data.map utf8Bytes).flatten

/-- `hashlib.md5(s.encode()).hexdigest()[:8]`: the first eight hexadecimal
characters of the MD5 digest of the UTF-8 bytes of `s`. -/
def md5hex8 (s : String) : String :=
  ⟨(((md5Digest (strBytes s)).take 4).map byteHex).flatten⟩

/-! ## Data model (`MigrationStatus`, `Migration`, `MigrationResult`) -/

/-- `MigrationStatus(str, Enum)`. -/
inductive MigrationStatus where
  | pending
  | applied
  | failed
  | rolled_back
deriving DecidableEq

/-- Observable behaviour of a zero-argument Python callable (`up_fn`,
`down_fn`): it either returns normally or raises with a message. -/
abbrev Proc := Except String Unit

instance : DecidableEq Proc := fun a b =>
  match a, b with
  | Except.ok (), Except.ok () => isTrue rfl
  | Except.error e, Except.error f =>
      if h : e = f then isTrue (by rw [h])
      else isFalse (by intro hc; cases hc; exact h rfl)
  | Except.ok (), Except.error _ => isFalse (by intro hc; cases hc)
  | Except.error _, Except.ok () => isFalse (by intro hc; cases hc)

/-- `@dataclass Migration`.  `applied_at : Option Nat` stands for the
`Optional[datetime]` field (an abstract timestamp). -/
structure Migration where
  version : String
  name : String
  up_sql : String := ""
  down_sql : String := ""
  up_fn : Option Proc := none
  down_fn : Option Proc := none
  checksum : String := ""
  applied_at : Option Nat := none
  status : MigrationStatus := MigrationStatus.pending
deriving DecidableEq

/-- `Migration.__post_init__`: if `checksum` is falsy (the empty string), set
it to `hashlib.md5((up_sql + down_sql).encode()).hexdigest()[:8]`.  Dataclass
construction always runs this, so the embedding applies it to every literal
that models a Python-side `Migration(...)` call. -/
def Migration.postInit (m : Migration) : Migration :=
  if m.checksum = "" then
    { m with checksum := md5hex8 (m.up_sql ++ m.down_sql) }
  else m

/-- `@dataclass MigrationResult`.  `duration_ms` is wall-clock timing in the
code; the embedding reports `0` (timing carries no specified content). -/
structure MigrationResult where
  version : String
  name : String
  success : Bool
  direction : String
  duration_ms : Nat := 0
  error : Option String := none
deriving DecidableEq

/-! ## Ledger (`MigrationStore`) -/

/-- The catalog representation of `Dict[str, Migration]`: an association list
in insertion order; lookup takes the first (unique) binding of a key. -/
abbrev Catalog := List (String × Migration)

/-- `MigrationStore`.  The `migrations` dict field exists in the source but is
never used by any operation.  The `threading.Lock` is not represented: all
embedded operations are the atomic versions the lock enforces. -/
structure MigrationStore where
  migrations : Catalog := []
  applied : List String := []
deriving DecidableEq

/-- `get_applied`: a snapshot copy of the applied-version list. -/
def MigrationStore.get_applied (s : MigrationStore) : List String := s.applied

/-- `mark_applied`: append `version` unless already present. -/
def MigrationStore.mark_applied (s : MigrationStore) (version : String) :
    MigrationStore :=
  if version ∈ s.applied then s else { s with applied := s.applied ++ [version] }

/-- `mark_rolled_back`: remove the first occurrence of `version`, if present
(`list.remove` guarded by a membership test). -/
def MigrationStore.mark_rolled_back (s : MigrationStore) (version : String) :
    MigrationStore :=
  { s with applied := s.applied.erase version }

/-- `is_applied`: membership in the applied-version list. -/
def MigrationStore.is_applied (s : MigrationStore) (version : String) : Bool :=
  version ∈ s.applied

/-! ## Executor (`MigrationRunner`) -/

/-- `_default_executor`: logs and returns `True`, never raises. -/
def defaultExecutor : String → Except String Unit := fun _ => Except.ok ()

/-- `MigrationRunner`: the backend handler takes the SQL payload and either
returns or raises. -/
structure MigrationRunner where
  executor : String → Except String Unit := defaultExecutor

/-- The body `run_up` executes: `up_fn()` when a procedure is set (callables
are truthy), else the handler on `up_sql` when that is non-empty (non-empty
strings are truthy), else nothing. -/
def MigrationRunner.upOutcome (r : MigrationRunner) (m : Migration) :
    Except String Unit :=
  match m.up_fn with
  | some f => f
  | none => if m.up_sql = "" then Except.ok () else r.executor m.up_sql

/-- `run_up`: execute the forward body, converting a raise into a failed
result carrying the message; never propagates. -/
def MigrationRunner.run_up (r : MigrationRunner) (m : Migration) :
    MigrationResult :=
  match r.upOutcome m with
  | Except.ok _ =>
      { version := m.version, name := m.name, success := true, direction := "up" }
  | Except.error e =>
      { version := m.version, name := m.name, success := false,
        direction := "up", error := some e }

/-- The body `run_down` executes (symmetric to `upOutcome`). -/
def MigrationRunner.downOutcome (r : MigrationRunner) (m : Migration) :
    Except String Unit :=
  match m.down_fn with
  | some f => f
  | none => if m.down_sql = "" then Except.ok () else r.executor m.down_sql

/-- `run_down`: execute the backward body, converting a raise into a failed
result carrying the message; never propagates. -/
def MigrationRunner.run_down (r : MigrationRunner) (m : Migration) :
    MigrationResult :=
  match r.downOutcome m with
  | Except.ok _ =>
      { version := m.version, name := m.name, success := true, direction := "down" }
  | Except.error e =>
      { version := m.version, name := m.name, success := false,
        direction := "down", error := some e }

/-! ## Builder (`MigrationBuilder`) -/

/-- `MigrationBuilder.__init__`: constructs the underlying `Migration` from
`(version, name)` alone — dataclass construction runs `__post_init__`, so the
checksum is derived here, from the still-empty payloads. -/
structure MigrationBuilder where
  migration : Migration

/-- `MigrationBuilder(version, name)`. -/
def MigrationBuilder.make (version name : String) : MigrationBuilder :=
  ⟨Migration.postInit { version := version, name := name }⟩

/-- `.up(sql)`: sets the forward payload (the checksum is not recomputed). -/
def MigrationBuilder.up (b : MigrationBuilder) (sql : String) : MigrationBuilder :=
  ⟨{ b.migration with up_sql := sql }⟩

/-- `.down(sql)`: sets the backward payload (the checksum is not recomputed). -/
def MigrationBuilder.down (b : MigrationBuilder) (sql : String) : MigrationBuilder :=
  ⟨{ b.migration with down_sql := sql }⟩

/-- `.up_fn(fn)`: sets the forward procedure. -/
def MigrationBuilder.up_fn (b : MigrationBuilder) (f : Proc) : MigrationBuilder :=
  ⟨{ b.migration with up_fn := some f }⟩

/-- `.down_fn(fn)`: sets the backward procedure. -/
def MigrationBuilder.down_fn (b : MigrationBuilder) (f : Proc) : MigrationBuilder :=
  ⟨{ b.migration with down_fn := some f }⟩

/-- `.build()`: returns the underlying `Migration`. -/
def MigrationBuilder.build (b : MigrationBuilder) : Migration := b.migration

/-! ## Python string comparison -/

/-- Python's `str` comparison `s < t`: lexicographic by code point.  (This is
the order Lean's `String` instances denote as well, but implemented by
structural recursion so that the kernel can evaluate it.) -/
def pyLtb : List Char → List Char → Bool
  | [], [] => false
  | [], _ :: _ => true
  | _ :: _, [] => false
  | c :: cs, d :: ds =>
    if c.toNat < d.toNat then true
    else if d.toNat < c.toNat then false
    else pyLtb cs ds

/-- `s < t` on Python strings. -/
def pyLt (s t : String) : Bool := pyLtb s.data t.data

/-- `s <= t` on Python strings. -/
def pyLe (s t : String) : Bool := !pyLtb t.data s.data

/-- `pyLe` as a relation (the sort order of `sorted(...)`). -/
def pyLeRel (s t : String) : Prop := pyLe s t = true

instance : DecidableRel pyLeRel := fun s t => by
  unfold pyLeRel
  infer_instance

/-! ## Orchestrator (`Migrator`) -/

/-- Observable behaviour of a hook callback: it receives the dispatch payload
(`None` for "before" events, the result list for "after" events) and either
returns normally or raises with a message. -/
abbrev Hook := Option (List MigrationResult) → Except String Unit

/-- The four named hook registries of `Migrator.__init__`. -/
structure Hooks where
  before_migrate : List Hook := []
  after_migrate : List Hook := []
  before_rollback : List Hook := []
  after_rollback : List Hook := []

/-- `_emit` over one registry: invoke every handler in registration order with
the payload; a raise is caught (and logged), never propagated.  The returned
list is the log of caught error messages. -/
def runHooks (hs : List Hook) (data : Option (List MigrationResult)) :
    List String :=
  hs.filterMap fun h =>
    match h data with
    | Except.ok _ => none
    | Except.error e => some e

/-- `self.migrations[version]` on the association-list catalog. -/
def dictGet : Catalog → String → Option Migration
  | [], _ => none
  | p :: rest, v => if p.1 = v then some p.2 else dictGet rest v

/-- In-place mutation of the catalog entry stored under key `v` (the Python
loops assign to fields of the dict's `Migration` object). -/
def setMigration (cat : Catalog) (v : String) (m : Migration) : Catalog :=
  cat.map fun p => if p.1 = v then (p.1, m) else p

/-- `Migrator`: registered catalog, ledger, executor and hook registry. -/
structure Migrator where
  store : MigrationStore := {}
  runner : MigrationRunner := {}
  migrations : Catalog := []
  hooks : Hooks := {}

/-- `add_hook(event, handler)`: append when the event name is one of the four
registered keys, else do nothing. -/
def Migrator.add_hook (mg : Migrator) (event : String) (h : Hook) : Migrator :=
  if event = "before_migrate" then
    { mg with hooks := { mg.hooks with before_migrate := mg.hooks.before_migrate ++ [h] } }
  else if event = "after_migrate" then
    { mg with hooks := { mg.hooks with after_migrate := mg.hooks.after_migrate ++ [h] } }
  else if event = "before_rollback" then
    { mg with hooks := { mg.hooks with before_rollback := mg.hooks.before_rollback ++ [h] } }
  else if event = "after_rollback" then
    { mg with hooks := { mg.hooks with after_rollback := mg.hooks.after_rollback ++ [h] } }
  else mg

/-- `register(migration)`: dict assignment keyed by `migration.version` —
overwrite the existing binding in place, else append. -/
def Migrator.register (mg : Migrator) (m : Migration) : Migrator :=
  { mg with migrations :=
      if (mg.migrations.map Prod.fst).contains m.version then
        setMigration mg.migrations m.version m
      else mg.migrations ++ [(m.version, m)] }

/-- `create(version, name)`: a fresh builder. -/
def Migrator.create (_ : Migrator) (version name : String) : MigrationBuilder :=
  MigrationBuilder.make version name

/-- `pending()`: catalog keys in sorted order, keeping those not applied,
mapped through the catalog. -/
def Migrator.pending (mg : Migrator) : List Migration :=
  (List.insertionSort pyLeRel (mg.migrations.map Prod.fst)).filterMap fun v =>
    if v ∈ mg.store.get_applied then none else dictGet mg.migrations v

/-- `applied()`: ledger order mapped back through the catalog; versions no
longer in the catalog are silently skipped. -/
def Migrator.applied (mg : Migrator) : List Migration :=
  mg.store.get_applied.filterMap (dictGet mg.migrations)

/-- The loop guard `if target and migration.version > target: break` —
`None` and the empty string are falsy, so only a non-empty target bounds the
run. -/
def stopAt (target : Option String) (m : Migration) : Bool :=
  match target with
  | none => false
  | some t => !(t == "") && pyLt t m.version

/-- Outcome of one batch call: the returned results, the migrator state after
the call, the hook events dispatched (in order), and the hook error messages
that were caught and logged. -/
structure BatchOutcome where
  results : List MigrationResult
  migrator : Migrator
  emitted : List String
  hookLog : List String

/-- The `migrate` loop over the precomputed `pending` list, threading ledger
and catalog.  On success: mark applied, set status `applied`, stamp
`applied_at`, continue.  On failure: set status `failed` and stop. -/
def migrateGo (runner : MigrationRunner) (target : Option String) (now : Nat) :
    List Migration → MigrationStore → Catalog →
    List MigrationResult × MigrationStore × Catalog
  | [], store, cat => ([], store, cat)
  | m :: rest, store, cat =>
    if stopAt target m then ([], store, cat)
    else
      let r := runner.run_up m
      if r.success then
        let out := migrateGo runner target now rest (store.mark_applied m.version)
          (setMigration cat m.version
            { m with status := MigrationStatus.applied, applied_at := some now })
        (r :: out.1, out.2)
      else
        ([r], store,
          setMigration cat m.version { m with status := MigrationStatus.failed })

/-- `migrate(target=None)`: emit `before_migrate`, run the loop over
`pending()`, emit `after_migrate` with the results.  `now` stands for
`datetime.now()`. -/
def Migrator.migrate (mg : Migrator) (now : Nat) (target : Option String) :
    BatchOutcome :=
  let beforeLog := runHooks mg.hooks.before_migrate none
  let out := migrateGo mg.runner target now mg.pending mg.store mg.migrations
  let afterLog := runHooks mg.hooks.after_migrate (some out.1)
  { results := out.1,
    migrator := { mg with store := out.2.1, migrations := out.2.2 },
    emitted := ["before_migrate", "after_migrate"],
    hookLog := beforeLog ++ afterLog }

/-- The `rollback` loop: `for i, version in enumerate(reversed(applied))` —
the walk index `i` counts every walked entry, and the loop breaks as soon as
`i >= steps`, before the catalog lookup; a version missing from the catalog is
skipped with `continue`.  On success: remove from ledger, set status
`rolled_back`.  On failure: set status `failed` and stop. -/
def rollbackGo (runner : MigrationRunner) (steps : Nat) :
    Nat → List String → MigrationStore → Catalog →
    List MigrationResult × MigrationStore × Catalog
  | _, [], store, cat => ([], store, cat)
  | i, v :: rest, store, cat =>
    if steps ≤ i then ([], store, cat)
    else
      match dictGet cat v with
      | none => rollbackGo runner steps (i + 1) rest store cat
      | some m =>
        let r := runner.run_down m
        if r.success then
          let out := rollbackGo runner steps (i + 1) rest
            (store.mark_rolled_back v)
            (setMigration cat v { m with status := MigrationStatus.rolled_back })
          (r :: out.1, out.2)
        else
          ([r], store,
            setMigration cat v { m with status := MigrationStatus.failed })

/-- `rollback(steps=1)`: emit `before_rollback`, walk the reversed applied
list, emit `after_rollback` with the results. -/
def Migrator.rollback (mg : Migrator) (steps : Nat) : BatchOutcome :=
  let beforeLog := runHooks mg.hooks.before_rollback none
  let out := rollbackGo mg.runner steps 0 mg.store.get_applied.reverse
    mg.store mg.migrations
  let afterLog := runHooks mg.hooks.after_rollback (some out.1)
  { results := out.1,
    migrator := { mg with store := out.2.1, migrations := out.2.2 },
    emitted := ["before_rollback", "after_rollback"],
    hookLog := beforeLog ++ afterLog }

/-- The `rollback_to` loop: break once the walked version is `≤ target`;
otherwise, when the version is in the catalog, run the backward body and on
success remove the version from the ledger.  No status field is written and
the loop does not stop on a failed result. -/
def rollbackToGo (runner : MigrationRunner) (target : String) (cat : Catalog) :
    List String → MigrationStore → List MigrationResult × MigrationStore
  | [], store => ([], store)
  | v :: rest, store =>
    if pyLe v target then ([], store)
    else
      match dictGet cat v with
      | none => rollbackToGo runner target cat rest store
      | some m =>
        let r := runner.run_down m
        let store' := if r.success then store.mark_rolled_back v else store
        let out := rollbackToGo runner target cat rest store'
        (r :: out.1, out.2)

/-- `rollback_to(target)`: walk the reversed applied list; no hook is
emitted. -/
def Migrator.rollback_to (mg : Migrator) (target : String) : BatchOutcome :=
  let out := rollbackToGo mg.runner target mg.migrations
    mg.store.get_applied.reverse mg.store
  { results := out.1,
    migrator := { mg with store := out.2 },
    emitted := [],
    hookLog := [] }

/-- The summary returned by `status()`. -/
structure StatusSummary where
  applied_count : Nat
  pending_count : Nat
  applied : List String
  pending : List String
  latest : Option String
deriving DecidableEq

/-- `status()`: counts and lists of applied/pending versions plus the latest
applied version. -/
def Migrator.status (mg : Migrator) : StatusSummary :=
  let applied := mg.store.get_applied
  let pend := mg.pending
  { applied_count := applied.length,
    pending_count := pend.length,
    applied := applied,
    pending := pend.map Migration.version,
    latest := applied.getLast? }

/-! ## Version-name stamping (`generate`) -/

/-- The character class `[a-z0-9]` of the slug regex. -/
def isSlugChar (c : Char) : Bool :=
  decide (('a' ≤ c ∧ c ≤ 'z') ∨ ('0' ≤ c ∧ c ≤ '9'))

/-- `name.lower()`, modelled character-wise (ASCII-faithful; any character on
which this differs from Python falls outside `[a-z0-9]` either way). -/
def lowerString (s : String) : String := ⟨s.data.map Char.toLower⟩

/-- `re.sub(r'[^a-z0-9]+', '_', ·)` as a scan: the flag records whether the
previous character belonged to a run already replaced by `'_'`. -/
def subAux : Bool → List Char → List Char
  | _, [] => []
  | inRun, c :: cs =>
    if isSlugChar c then c :: subAux false cs
    else if inRun then subAux true cs
    else '_' :: subAux true cs

/-- `re.sub(r'[^a-z0-9]+', '_', ·)`: collapse each maximal run of characters
outside `[a-z0-9]` to a single underscore. -/
def subRuns (l : List Char) : List Char := subAux false l

/-- `.strip('_')`: drop underscores from both ends. -/
def stripSep (l : List Char) : List Char :=
  ((l.dropWhile (· == '_')).reverse.dropWhile (· == '_')).reverse

/-- The slug of `generate`: `re.sub(r'[^a-z0-9]+', '_', name.lower()).strip('_')`. -/
def slug (name : String) : String :=
  ⟨stripSep (subRuns (lowerString name).data)⟩

/-- `generate(name)`: `f"{timestamp}_{slug}"`.  The timestamp — the wall-clock
value `datetime.now().strftime("%Y%m%d%H%M%S")` — is passed in as a
parameter. -/
def generate (timestamp : String) (name : String) : String :=
  timestamp ++ "_" ++ slug name


/-! ## Derived predicates and spec-side definitions -/

/-- Well-formedness of a migrator catalog, as `register` maintains it: keys
are unique and each entry is stored under its own version. -/
def Migrator.WF (mg : Migrator) : Prop :=
  (mg.migrations.map Prod.fst).Nodup ∧ ∀ p ∈ mg.migrations, p.2.version = p.1

instance (mg : Migrator) : Decidable mg.WF := by
  unfold Migrator.WF; infer_instance

/-- Spec-side description of the slug ("maximal runs"): the maximal runs of
`[a-z0-9]` characters of a character list, in order. -/
def alnumRuns : List Char → List (List Char)
  | [] => []
  | c :: cs =>
    if isSlugChar c then
      (c :: cs.takeWhile isSlugChar) ::
        alnumRuns ((cs.dropWhile isSlugChar).dropWhile fun d => !isSlugChar d)
    else alnumRuns (cs.dropWhile fun d => !isSlugChar d)
termination_by l => l.length
decreasing_by
  · simp only [List.length_cons]
    exact Nat.lt_succ_of_le (Nat.le_trans
      ((List.dropWhile_sublist _).length_le)
      ((List.dropWhile_sublist _).length_le))
  · simp only [List.length_cons]
    exact Nat.lt_succ_of_le ((List.dropWhile_sublist _).length_le)

/-- Spec-side slug, following the specification's words: the normalized slug
is the maximal alphanumeric runs of the lowercased name joined by single
separators — so runs of non-alphanumeric characters collapse to one
separator and no separator leads or trails. -/
def slugSpec (name : String) : String :=
  ⟨List.intercalate ['_'] (alnumRuns (lowerString name).data)⟩

/-! ## Concrete states used by witnesses and counterexamples -/

/-- A migration whose forward and backward bodies both succeed (payloads run
through the default executor). -/
def exOk (v : String) : Migration :=
  { version := v, name := "m" ++ v, up_sql := "U" ++ v, down_sql := "D" ++ v,
    checksum := "ck" }

/-- A migration whose forward body raises. -/
def exUpFail (v : String) : Migration :=
  { exOk v with up_fn := some (Except.error "boom") }

/-- A migration whose backward body raises. -/
def exDownFail (v : String) : Migration :=
  { exOk v with down_fn := some (Except.error "boom") }

/-- Catalog {001, 002, 003}, all bodies succeeding, nothing applied. -/
def mgThreeOk : Migrator :=
  { migrations := [("001", exOk "001"), ("002", exOk "002"), ("003", exOk "003")] }

/-- Catalog {001, 002, 003} where 002's forward body raises, nothing applied. -/
def mgMidFail : Migrator :=
  { migrations := [("001", exOk "001"), ("002", exUpFail "002"), ("003", exOk "003")] }

/-- Catalog {001}, nothing applied. -/
def mgOneOk : Migrator :=
  { migrations := [("001", exOk "001")] }

/-- Catalog {001} with ledger ["001", "999"]: the most recently applied
version 999 is absent from the catalog. -/
def mgOrphan : Migrator :=
  { migrations := [("001", exOk "001")],
    store := { applied := ["001", "999"] } }

/-- Catalog {001, 002, 003} fully applied, all backward bodies succeeding. -/
def mgAllApplied : Migrator :=
  { migrations := [("001", exOk "001"), ("002", exOk "002"), ("003", exOk "003")],
    store := { applied := ["001", "002", "003"] } }

/-- Catalog {001, 002} fully applied, where 002's backward body raises. -/
def mgDownFail : Migrator :=
  { migrations := [("001", exOk "001"), ("002", exDownFail "002")],
    store := { applied := ["001", "002"] } }

/-- Ledger after the `migrate` loop has applied each migration of `pre` in
order. -/
def storeAfter (pre : List Migration) (store : MigrationStore) : MigrationStore :=
  pre.foldl (fun s m => s.mark_applied m.version) store

/-- Catalog after the `migrate` loop has applied each migration of `pre` in
order (status `applied`, `applied_at` stamped). -/
def catAfter (now : Nat) (pre : List Migration) (cat : Catalog) : Catalog :=
  pre.foldl
    (fun c m => setMigration c m.version
      { m with status := MigrationStatus.applied, applied_at := some now })
    cat

/-- The walked versions whose backward execution is attempted: those present
in the catalog. -/
def attemptedOf (cat : Catalog) (walked : List String) : List String :=
  walked.filter fun v => (dictGet cat v).isSome

/-- The walked versions a rollback walk removes from the ledger: those present
in the catalog whose backward execution succeeds. -/
def rolledOf (runner : MigrationRunner) (cat : Catalog) (walked : List String) :
    List String :=
  walked.filter fun v =>
    match dictGet cat v with
    | some m => (runner.run_down m).success
    | none => false

/-! ## Theorems -/

/-- C6: for every ledger state and version `v`: `is_applied v` is false on a
ledger not containing `v` and true immediately after `mark_applied v`;
`mark_applied` is idempotent (twice equals once, and adding a present version
is a no-op); `mark_rolled_back` of an absent version is a no-op. -/
theorem C6_store_contract (s : MigrationStore) (v : String) :
    (v ∉ s.applied → s.is_applied v = false)
    ∧ (s.mark_applied v).is_applied v = true
    ∧ (s.mark_applied v).mark_applied v = s.mark_applied v
    ∧ (v ∈ s.applied → s.mark_applied v = s)
    ∧ (v ∉ s.applied → s.mark_rolled_back v = s) := by
  refine ⟨fun h => ?_, ?_, ?_, fun h => ?_, fun h => ?_⟩
  · simp [MigrationStore.is_applied, h]
  · by_cases h : v ∈ s.applied <;>
      simp [MigrationStore.mark_applied, MigrationStore.is_applied, h]
  · by_cases h : v ∈ s.applied <;> simp [MigrationStore.mark_applied, h]
  · simp [MigrationStore.mark_applied, h]
  · simp [MigrationStore.mark_rolled_back, List.erase_of_not_mem h]

/-- Witness for C6 at the concrete ledger `["002"]` and version `"001"`. -/
theorem C6_store_contract_witness :
    MigrationStore.is_applied { applied := ["002"] } "001" = false
    ∧ (MigrationStore.mark_applied { applied := ["002"] } "001").is_applied "001" = true
    ∧ MigrationStore.mark_rolled_back { applied := ["002"] } "001"
        = { applied := ["002"] } :=
  ⟨(C6_store_contract { applied := ["002"] } "001").1 (by decide),
   (C6_store_contract { applied := ["002"] } "001").2.1,
   (C6_store_contract { applied := ["002"] } "001").2.2.2.2 (by decide)⟩

/-- C7 counterexample: two Builder constructions that differ in the forward
payload nevertheless have equal checksums — the Builder constructs the
`Migration` (running checksum derivation) before any payload is attached, so
the claim "constructions that differ in either payload yield different
checksums" is false. -/
theorem C7_counterexample :
    ((MigrationBuilder.make "001" "a").up "A").build.up_sql
      ≠ ((MigrationBuilder.make "002" "b").up "B").build.up_sql
    ∧ ((MigrationBuilder.make "001" "a").up "A").build.checksum
      = ((MigrationBuilder.make "002" "b").up "B").build.checksum := by
  exact ⟨by decide, rfl⟩

/-- C7 amended: a directly constructed `Migration` without an explicit
checksum derives it deterministically from the concatenated payloads (so
identical payloads yield equal checksums regardless of version and name),
while every Builder-constructed migration carries the checksum of the empty
content, because the Builder derives the checksum before payloads are set. -/
theorem C7_checksum_amended (v n v' n' up down : String) :
    (Migration.postInit { version := v, name := n, up_sql := up, down_sql := down }).checksum
      = md5hex8 (up ++ down)
    ∧ (Migration.postInit { version := v', name := n', up_sql := up, down_sql := down }).checksum
      = (Migration.postInit { version := v, name := n, up_sql := up, down_sql := down }).checksum
    ∧ (((MigrationBuilder.make v n).up up).down down).build.checksum = md5hex8 "" := by
  refine ⟨rfl, rfl, rfl⟩

/-- C8: hook callbacks — including ones that raise — never change the results
of `migrate`, the ledger, or any migration's status: the raise is caught at
dispatch and only logged. -/
theorem C8_hook_fault (mg : Migrator) (hs : Hooks) (now : Nat)
    (target : Option String) :
    (({ mg with hooks := hs } : Migrator).migrate now target).results
        = (mg.migrate now target).results
    ∧ (({ mg with hooks := hs } : Migrator).migrate now target).migrator.store
        = (mg.migrate now target).migrator.store
    ∧ (({ mg with hooks := hs } : Migrator).migrate now target).migrator.migrations
        = (mg.migrate now target).migrator.migrations
    ∧ (({ mg with hooks := hs } : Migrator).migrate now target).hookLog
        = runHooks hs.before_migrate none
          ++ runHooks hs.after_migrate (some (mg.migrate now target).results) := by
  refine ⟨rfl, rfl, rfl, rfl⟩

/-- C10: `rollback_to` mutates only the ledger — the catalog, and with it
every migration's `status` and `applied_at`, is left untouched, on success
and on failure alike; `rollback` by contrast does update the catalog (shown
on the concrete fully-applied state). -/
theorem C10_rollback_to_frame (mg : Migrator) (target : String) :
    (mg.rollback_to target).migrator.migrations = mg.migrations
    ∧ (mgAllApplied.rollback 1).migrator.migrations ≠ mgAllApplied.migrations := by
  exact ⟨rfl, by decide⟩

/-! ### Catalog lemmas -/

theorem dictGet_cons (p : String × Migration) (rest : Catalog) (v : String) :
    dictGet (p :: rest) v = if p.1 = v then some p.2 else dictGet rest v := rfl

theorem setMigration_cons (p : String × Migration) (rest : Catalog) (v : String)
    (m : Migration) :
    setMigration (p :: rest) v m
      = (if p.1 = v then (p.1, m) else p) :: setMigration rest v m := rfl

theorem dictGet_setMigration_ne (cat : Catalog) (v w : String) (m : Migration)
    (h : w ≠ v) : dictGet (setMigration cat v m) w = dictGet cat w := by
  induction cat with
  | nil => rfl
  | cons p rest ih =>
    rw [setMigration_cons, dictGet_cons, dictGet_cons]
    by_cases hp : p.1 = v
    · have hw : ¬ p.1 = w := fun hc => h (hc ▸ hp)
      rw [if_pos hp]
      show (if p.1 = w then some m else dictGet (setMigration rest v m) w) = _
      rw [if_neg hw, if_neg hw]
      exact ih
    · rw [if_neg hp]
      by_cases hw : p.1 = w
      · rw [if_pos hw, if_pos hw]
      · rw [if_neg hw, if_neg hw]
        exact ih

theorem setMigration_map_fst (cat : Catalog) (v : String) (m : Migration) :
    (setMigration cat v m).map Prod.fst = cat.map Prod.fst := by
  induction cat with
  | nil => rfl
  | cons p rest ih =>
    rw [setMigration_cons, List.map_cons, List.map_cons, ih]
    by_cases hp : p.1 = v
    · rw [if_pos hp]
    · rw [if_neg hp]

theorem mem_of_dictGet_eq_some (cat : Catalog) (v : String) (m : Migration)
    (h : dictGet cat v = some m) : (v, m) ∈ cat := by
  induction cat with
  | nil => simp [dictGet] at h
  | cons p rest ih =>
    rw [dictGet_cons] at h
    by_cases hp : p.1 = v
    · rw [if_pos hp] at h
      have h2 : p.2 = m := by injection h
      have hpm : (v, m) = p := by rw [← hp, ← h2]
      rw [hpm]
      exact List.mem_cons_self p rest
    · rw [if_neg hp] at h
      exact List.mem_cons_of_mem p (ih h)

theorem dictGet_version (cat : Catalog)
    (hver : ∀ p ∈ cat, p.2.version = p.1) (v : String) (m : Migration)
    (h : dictGet cat v = some m) : m.version = v :=
  hver (v, m) (mem_of_dictGet_eq_some cat v m h)

theorem dictGet_isSome (cat : Catalog) (v : String)
    (h : v ∈ cat.map Prod.fst) : (dictGet cat v).isSome := by
  induction cat with
  | nil => simp at h
  | cons p rest ih =>
    rw [dictGet_cons]
    by_cases hp : p.1 = v
    · rw [if_pos hp]
      rfl
    · rw [if_neg hp]
      apply ih
      rw [List.map_cons] at h
      rcases List.mem_cons.mp h with h1 | h1
      · exact absurd h1.symm hp
      · exact h1

/-! ### `pending()` lemmas -/

theorem pending_mem (mg : Migrator) (hWF : mg.WF) (m : Migration)
    (hm : m ∈ mg.pending) :
    dictGet mg.migrations m.version = some m
      ∧ m.version ∉ mg.store.applied := by
  unfold Migrator.pending at hm
  rw [List.mem_filterMap] at hm
  obtain ⟨v, _, hget⟩ := hm
  by_cases hva : v ∈ mg.store.get_applied
  · rw [if_pos hva] at hget
    exact absurd hget (by simp)
  · rw [if_neg hva] at hget
    have hver := dictGet_version mg.migrations hWF.2 v m hget
    rw [hver]
    exact ⟨hget, hva⟩

theorem pending_version_eq (mg : Migrator) (hWF : mg.WF) :
    mg.pending.map Migration.version
      = (List.insertionSort pyLeRel (mg.migrations.map Prod.fst)).filter
          (fun v => !decide (v ∈ mg.store.applied)) := by
  unfold Migrator.pending
  have key : ∀ ks : List String, (∀ v ∈ ks, v ∈ mg.migrations.map Prod.fst) →
      (ks.filterMap (fun v =>
          if v ∈ mg.store.get_applied then none
          else dictGet mg.migrations v)).map Migration.version
        = ks.filter (fun v => !decide (v ∈ mg.store.applied)) := by
    intro ks
    induction ks with
    | nil => intro _; rfl
    | cons v rest ih =>
      intro hsub
      have hrest := ih fun w hw => hsub w (List.mem_cons_of_mem v hw)
      by_cases hva : v ∈ mg.store.applied
      · have hga : v ∈ mg.store.get_applied := hva
        rw [List.filterMap_cons_none (by rw [if_pos hga]), List.filter_cons,
          decide_eq_true hva]
        simpa using hrest
      · have hga : v ∉ mg.store.get_applied := hva
        obtain ⟨m, hm⟩ := Option.isSome_iff_exists.mp
          (dictGet_isSome mg.migrations v (hsub v (List.mem_cons_self v rest)))
        have hver := dictGet_version mg.migrations hWF.2 v m hm
        rw [List.filterMap_cons_some (by rw [if_neg hga]; exact hm),
          List.filter_cons, decide_eq_false hva, List.map_cons, hver]
        simpa using hrest
  exact key _ fun v hv =>
    (List.perm_insertionSort pyLeRel (mg.migrations.map Prod.fst)).mem_iff.mp hv

/-! ### Order facts for `pyLe` -/

theorem pyLtb_irrefl : ∀ l : List Char, pyLtb l l = false := by
  intro l
  induction l with
  | nil => rfl
  | cons c cs ih => simp [pyLtb, ih]

theorem pyLtb_trans : ∀ x y z : List Char, pyLtb x y = true → pyLtb y z = true →
    pyLtb x z = true := by
  intro x
  induction x with
  | nil =>
    intro y z h1 h2
    cases y with
    | nil => simp [pyLtb] at h1
    | cons d ds =>
      cases z with
      | nil => simp [pyLtb] at h2
      | cons e es => rfl
  | cons c cs ih =>
    intro y z h1 h2
    cases y with
    | nil => simp [pyLtb] at h1
    | cons d ds =>
      cases z with
      | nil => simp [pyLtb] at h2
      | cons e es =>
        simp only [pyLtb] at h1 h2 ⊢
        by_cases hcd : c.toNat < d.toNat
        · by_cases hde : d.toNat < e.toNat
          · rw [if_pos (Nat.lt_trans hcd hde)]
          · rw [if_neg hde] at h2
            by_cases hed : e.toNat < d.toNat
            · rw [if_pos hed] at h2
              exact absurd h2 (by simp)
            · have : c.toNat < e.toNat := by omega
              rw [if_pos this]
        · rw [if_neg hcd] at h1
          by_cases hdc : d.toNat < c.toNat
          · rw [if_pos hdc] at h1
            exact absurd h1 (by simp)
          · rw [if_neg hdc] at h1
            by_cases hde : d.toNat < e.toNat
            · have : c.toNat < e.toNat := by omega
              rw [if_pos this]
            · rw [if_neg hde] at h2
              by_cases hed : e.toNat < d.toNat
              · rw [if_pos hed] at h2
                exact absurd h2 (by simp)
              · rw [if_neg hed] at h2
                have h3 : ¬ c.toNat < e.toNat := by omega
                have h4 : ¬ e.toNat < c.toNat := by omega
                rw [if_neg h3, if_neg h4]
                exact ih ds es h1 h2

theorem pyLtb_conn : ∀ x y : List Char, pyLtb x y = false → pyLtb y x = false →
    x = y := by
  intro x
  induction x with
  | nil =>
    intro y h1 _
    cases y with
    | nil => rfl
    | cons d ds => simp [pyLtb] at h1
  | cons c cs ih =>
    intro y h1 h2
    cases y with
    | nil => simp [pyLtb] at h2
    | cons d ds =>
      simp only [pyLtb] at h1 h2
      by_cases hcd : c.toNat < d.toNat
      · rw [if_pos hcd] at h1
        exact absurd h1 (by simp)
      · rw [if_neg hcd] at h1
        by_cases hdc : d.toNat < c.toNat
        · rw [if_pos hdc] at h2
          exact absurd h2 (by simp)
        · rw [if_neg hdc] at h1
          rw [if_neg hdc, if_neg hcd] at h2
          have hnat : c.toNat = d.toNat := by omega
          have hchar : c = d := Char.eq_of_val_eq (UInt32.ext hnat)
          rw [hchar, ih ds h1 h2]

theorem pyLe_total (a b : String) : pyLe a b = true ∨ pyLe b a = true := by
  unfold pyLe
  by_cases h1 : pyLtb b.data a.data = true
  · right
    by_cases h2 : pyLtb a.data b.data = true
    · have := pyLtb_trans _ _ _ h1 h2
      rw [pyLtb_irrefl] at this
      exact absurd this (by simp)
    · rw [Bool.not_eq_true] at h2
      rw [h2]
      rfl
  · left
    rw [Bool.not_eq_true] at h1
    rw [h1]
    rfl

theorem pyLe_trans (a b c : String) (h1 : pyLe a b = true) (h2 : pyLe b c = true) :
    pyLe a c = true := by
  unfold pyLe at h1 h2 ⊢
  rw [Bool.not_eq_true'] at h1 h2 ⊢
  by_cases hca : pyLtb c.data a.data = true
  · by_cases hbc : pyLtb b.data c.data = true
    · have := pyLtb_trans _ _ _ hbc hca
      rw [h1] at this
      exact absurd this (by simp)
    · have hbceq : b.data = c.data :=
        pyLtb_conn _ _ (by simpa using hbc) h2
      rw [← hbceq] at hca
      rw [hca] at h1
      exact absurd h1 (by simp)
  · simpa using hca

theorem sorted_orderedInsert_pyLe (a : String) :
    ∀ l : List String, List.Sorted pyLeRel l →
      List.Sorted pyLeRel (List.orderedInsert pyLeRel a l) := by
  intro l
  induction l with
  | nil => intro _; simp [List.orderedInsert]
  | cons b l ih =>
    intro hs
    rw [List.sorted_cons] at hs
    rw [List.orderedInsert]
    by_cases hab : pyLeRel a b
    · rw [if_pos hab, List.sorted_cons]
      constructor
      · intro x hx
        rcases List.mem_cons.mp hx with rfl | hx
        · exact hab
        · exact pyLe_trans a b x hab (hs.1 x hx)
      · rw [List.sorted_cons]
        exact hs
    · rw [if_neg hab, List.sorted_cons]
      constructor
      · intro x hx
        have hx' := (List.perm_orderedInsert pyLeRel a l).mem_iff.mp hx
        rcases List.mem_cons.mp hx' with heq | hx'
        · rw [heq]
          rcases pyLe_total a b with h | h
          · exact absurd h hab
          · exact h
        · exact hs.1 x hx'
      · exact ih hs.2

theorem sorted_insertionSort_pyLe :
    ∀ l : List String, List.Sorted pyLeRel (List.insertionSort pyLeRel l) := by
  intro l
  induction l with
  | nil => simp
  | cons a l ih =>
    rw [List.insertionSort]
    exact sorted_orderedInsert_pyLe a _ ih

theorem pending_version_sorted (mg : Migrator) (hWF : mg.WF) :
    List.Sorted pyLeRel (mg.pending.map Migration.version) := by
  rw [pending_version_eq mg hWF]
  exact List.Pairwise.sublist (List.filter_sublist _)
    (sorted_insertionSort_pyLe (mg.migrations.map Prod.fst))

theorem pending_version_nodup (mg : Migrator) (hWF : mg.WF) :
    (mg.pending.map Migration.version).Nodup := by
  rw [pending_version_eq mg hWF]
  exact List.Nodup.filter _
    ((List.perm_insertionSort pyLeRel (mg.migrations.map Prod.fst)).nodup_iff.mpr hWF.1)

theorem takeWhile_eq_filter_sorted (t : String) :
    ∀ ms : List Migration, List.Sorted pyLeRel (ms.map Migration.version) →
      ms.takeWhile (fun m => pyLe m.version t)
        = ms.filter (fun m => pyLe m.version t) := by
  intro ms
  induction ms with
  | nil => intro _; rfl
  | cons m rest ih =>
    intro hs
    rw [List.map_cons, List.sorted_cons] at hs
    rw [List.takeWhile_cons, List.filter_cons]
    by_cases hm : pyLe m.version t = true
    · rw [hm]
      simpa using ih hs.2
    · rw [Bool.not_eq_true] at hm
      rw [hm]
      have hnil : rest.filter (fun m => pyLe m.version t) = [] := by
        rw [List.filter_eq_nil_iff]
        intro a ha hle
        have hma := hs.1 _ (List.mem_map_of_mem Migration.version ha)
        have hmt := pyLe_trans m.version a.version t hma hle
        rw [hm] at hmt
        exact absurd hmt (by simp)
      rw [if_neg (by simp), if_neg (by simp), hnil]

/-! ### `migrate` loop lemmas -/

theorem migrateGo_cons_stop (runner : MigrationRunner) (target : Option String)
    (now : Nat) (m : Migration) (rest : List Migration) (store : MigrationStore)
    (cat : Catalog) (h : stopAt target m = true) :
    migrateGo runner target now (m :: rest) store cat = ([], store, cat) := by
  simp [migrateGo, h]

theorem migrateGo_cons_fail (runner : MigrationRunner) (target : Option String)
    (now : Nat) (m : Migration) (rest : List Migration) (store : MigrationStore)
    (cat : Catalog) (h1 : stopAt target m = false)
    (h2 : (runner.run_up m).success = false) :
    migrateGo runner target now (m :: rest) store cat
      = ([runner.run_up m], store,
         setMigration cat m.version { m with status := MigrationStatus.failed }) := by
  simp [migrateGo, h1, h2]

theorem migrateGo_cons_succ (runner : MigrationRunner) (target : Option String)
    (now : Nat) (m : Migration) (rest : List Migration) (store : MigrationStore)
    (cat : Catalog) (h1 : stopAt target m = false)
    (h2 : (runner.run_up m).success = true) :
    migrateGo runner target now (m :: rest) store cat
      = (runner.run_up m ::
          (migrateGo runner target now rest (store.mark_applied m.version)
            (setMigration cat m.version
              { m with status := MigrationStatus.applied,
                       applied_at := some now })).1,
         (migrateGo runner target now rest (store.mark_applied m.version)
            (setMigration cat m.version
              { m with status := MigrationStatus.applied,
                       applied_at := some now })).2) := by
  simp [migrateGo, h1, h2]

theorem migrateGo_append_ok (runner : MigrationRunner) (target : Option String)
    (now : Nat) :
    ∀ pre : List Migration,
      (∀ m ∈ pre, stopAt target m = false ∧ (runner.run_up m).success = true) →
      ∀ (rest : List Migration) (store : MigrationStore) (cat : Catalog),
        migrateGo runner target now (pre ++ rest) store cat
          = (pre.map runner.run_up
              ++ (migrateGo runner target now rest (storeAfter pre store)
                    (catAfter now pre cat)).1,
             (migrateGo runner target now rest (storeAfter pre store)
                (catAfter now pre cat)).2) := by
  intro pre
  induction pre with
  | nil => intro _ rest store cat; simp [storeAfter, catAfter]
  | cons m pre ih =>
    intro hpre rest store cat
    obtain ⟨h1, h2⟩ := hpre m (List.mem_cons_self m pre)
    have ih' := ih (fun m' hm' => hpre m' (List.mem_cons_of_mem m hm'))
    rw [List.cons_append, migrateGo_cons_succ runner target now m (pre ++ rest)
      store cat h1 h2, ih' rest (store.mark_applied m.version)
      (setMigration cat m.version
        { m with status := MigrationStatus.applied, applied_at := some now })]
    rfl

theorem storeAfter_applied :
    ∀ (pre : List Migration) (store : MigrationStore),
      (∀ m ∈ pre, m.version ∉ store.applied) →
      (pre.map Migration.version).Nodup →
      (storeAfter pre store).applied = store.applied ++ pre.map Migration.version := by
  intro pre
  induction pre with
  | nil => intro store _ _; simp [storeAfter]
  | cons m pre ih =>
    intro store hnotin hnodup
    have hm := hnotin m (List.mem_cons_self m pre)
    rw [List.map_cons, List.nodup_cons] at hnodup
    have hstep : store.mark_applied m.version
        = { store with applied := store.applied ++ [m.version] } := by
      simp [MigrationStore.mark_applied, hm]
    show (storeAfter pre (store.mark_applied m.version)).applied = _
    rw [hstep, ih { store with applied := store.applied ++ [m.version] }
      ?notin hnodup.2]
    · simp
    case notin =>
      intro m' hm'
      simp only [List.mem_append, List.mem_singleton]
      rintro (hc | hc)
      · exact hnotin m' (List.mem_cons_of_mem m hm') hc
      · exact hnodup.1 (hc ▸ List.mem_map_of_mem Migration.version hm')

theorem dictGet_catAfter_ne :
    ∀ (pre : List Migration) (cat : Catalog) (now : Nat) (w : String),
      w ∉ pre.map Migration.version →
      dictGet (catAfter now pre cat) w = dictGet cat w := by
  intro pre
  induction pre with
  | nil => intro cat now w _; rfl
  | cons m pre ih =>
    intro cat now w hw
    rw [List.map_cons] at hw
    show dictGet (catAfter now pre (setMigration cat m.version _)) w = _
    rw [ih _ now w fun hc => hw (List.mem_cons_of_mem _ hc),
      dictGet_setMigration_ne _ _ _ _ fun hc =>
        hw (by rw [hc]; exact List.mem_cons_self m.version (pre.map Migration.version))]

/-- C1: when `migrate()` (no target) meets a failing forward execution after a
prefix of successes, the returned results are exactly the attempted ones — the
successes followed by the single failure — every earlier success is marked
applied in the ledger, and every pending migration after the failure is not
attempted: its catalog entry is unchanged and it stays out of the ledger. -/
theorem C1_migrate_failfast (mg : Migrator) (now : Nat)
    (pre : List Migration) (f : Migration) (post : List Migration)
    (hWF : mg.WF)
    (hsplit : mg.pending = pre ++ f :: post)
    (hpre : ∀ m ∈ pre, (mg.runner.run_up m).success = true)
    (hf : (mg.runner.run_up f).success = false) :
    (mg.migrate now none).results
        = pre.map mg.runner.run_up ++ [mg.runner.run_up f]
    ∧ (mg.migrate now none).migrator.store.applied
        = mg.store.applied ++ pre.map Migration.version
    ∧ (∀ m ∈ pre, (mg.migrate now none).migrator.store.is_applied m.version = true)
    ∧ (∀ m ∈ post,
        dictGet (mg.migrate now none).migrator.migrations m.version = some m
        ∧ (mg.migrate now none).migrator.store.is_applied m.version = false) := by
  have hpre' : ∀ m ∈ pre, stopAt none m = false ∧ (mg.runner.run_up m).success = true :=
    fun m hm => ⟨rfl, hpre m hm⟩
  have hgo : migrateGo mg.runner none now mg.pending mg.store mg.migrations
      = (pre.map mg.runner.run_up ++ [mg.runner.run_up f],
         storeAfter pre mg.store,
         setMigration (catAfter now pre mg.migrations) f.version
           { f with status := MigrationStatus.failed }) := by
    rw [hsplit, migrateGo_append_ok mg.runner none now pre hpre' (f :: post)
        mg.store mg.migrations,
      migrateGo_cons_fail mg.runner none now f post (storeAfter pre mg.store)
        (catAfter now pre mg.migrations) rfl hf]
  have h1 : (mg.migrate now none).results
      = (migrateGo mg.runner none now mg.pending mg.store mg.migrations).1 := rfl
  have h2 : (mg.migrate now none).migrator.store
      = (migrateGo mg.runner none now mg.pending mg.store mg.migrations).2.1 := rfl
  have h3 : (mg.migrate now none).migrator.migrations
      = (migrateGo mg.runner none now mg.pending mg.store mg.migrations).2.2 := rfl
  have hprefacts : ∀ m ∈ pre,
      dictGet mg.migrations m.version = some m ∧ m.version ∉ mg.store.applied :=
    fun m hm => pending_mem mg hWF m (by rw [hsplit]; exact List.mem_append_left _ hm)
  have hnodup := pending_version_nodup mg hWF
  rw [hsplit, List.map_append, List.map_cons] at hnodup
  rw [List.nodup_append] at hnodup
  obtain ⟨hn1, hn2, hdisj⟩ := hnodup
  rw [List.nodup_cons] at hn2
  have hstore : (storeAfter pre mg.store).applied
      = mg.store.applied ++ pre.map Migration.version :=
    storeAfter_applied pre mg.store (fun m hm => (hprefacts m hm).2) hn1
  refine ⟨?_, ?_, ?_, ?_⟩
  · rw [h1, hgo]
  · rw [h2, hgo]
    exact hstore
  · intro m hm
    rw [h2, hgo]
    show decide (m.version ∈ (storeAfter pre mg.store).applied) = true
    rw [hstore, decide_eq_true_eq]
    exact List.mem_append_right _ (List.mem_map_of_mem Migration.version hm)
  · intro m hm
    have hmv : m.version ∈ post.map Migration.version :=
      List.mem_map_of_mem Migration.version hm
    have hne_f : m.version ≠ f.version := by
      intro hc
      exact hn2.1 (hc ▸ hmv)
    have hnotpre : m.version ∉ pre.map Migration.version := by
      intro hc
      exact hdisj hc (List.mem_cons_of_mem _ hmv)
    have hpend := pending_mem mg hWF m
      (by rw [hsplit]
          exact List.mem_append_right _ (List.mem_cons_of_mem f hm))
    constructor
    · rw [h3, hgo]
      show dictGet (setMigration (catAfter now pre mg.migrations) f.version _)
        m.version = some m
      rw [dictGet_setMigration_ne _ _ _ _ hne_f,
        dictGet_catAfter_ne pre mg.migrations now m.version hnotpre]
      exact hpend.1
    · rw [h2, hgo]
      show decide (m.version ∈ (storeAfter pre mg.store).applied) = false
      rw [hstore, decide_eq_false_iff_not]
      intro hc
      rcases List.mem_append.mp hc with hc | hc
      · exact hpend.2 hc
      · exact hnotpre hc

/-- Witness for C1 at the concrete catalog {001 ok, 002 failing, 003 ok}:
the hypotheses hold and the conclusion is obtained from the theorem. -/
theorem C1_migrate_failfast_witness :
    mgMidFail.WF
    ∧ mgMidFail.pending = [exOk "001"] ++ exUpFail "002" :: [exOk "003"]
    ∧ (mgMidFail.migrate 0 none).results
        = [exOk "001"].map mgMidFail.runner.run_up
          ++ [mgMidFail.runner.run_up (exUpFail "002")]
    ∧ (∀ m ∈ [exOk "003"],
        dictGet (mgMidFail.migrate 0 none).migrator.migrations m.version = some m
        ∧ (mgMidFail.migrate 0 none).migrator.store.is_applied m.version = false) :=
  ⟨by decide, by decide,
   (C1_migrate_failfast mgMidFail 0 [exOk "001"] (exUpFail "002") [exOk "003"]
     (by decide) (by decide) (by decide) (by decide)).1,
   (C1_migrate_failfast mgMidFail 0 [exOk "001"] (exUpFail "002") [exOk "003"]
     (by decide) (by decide) (by decide) (by decide)).2.2.2⟩

theorem dropWhile_cons_head {α : Type} (p : α → Bool) :
    ∀ (l : List α) (b : α) (bs : List α), l.dropWhile p = b :: bs →
      p b = false := by
  intro l
  induction l with
  | nil => intro b bs h; simp at h
  | cons a l ih =>
    intro b bs h
    rw [List.dropWhile_cons] at h
    by_cases ha : p a = true
    · rw [if_pos ha] at h
      exact ih b bs h
    · rw [if_neg ha] at h
      injection h with h1 _
      rw [Bool.not_eq_true] at ha
      rw [← h1]
      exact ha

/-- C4 counterexample: the empty string is a given (non-`None`) target that is
smaller than every non-empty version, so the claim demands that nothing be
executed; but `if target and ...` treats the falsy empty string as "no
target", and `migrate(target="")` applies migration 001 anyway. -/
theorem C4_counterexample :
    pyLt "" "001" = true
    ∧ (mgOneOk.migrate 0 (some "")).results.length = 1
    ∧ (mgOneOk.migrate 0 (some "")).migrator.store.is_applied "001" = true :=
  ⟨by decide, by decide, by decide⟩

/-- C4 amended: for every non-empty target and succeeding forward executions,
`migrate(target)` runs over `pending()` in ascending version order and
executes exactly the pending migrations whose version does not exceed the
target; every pending migration with version above the target is not
attempted, keeps its catalog entry, and stays out of the ledger. -/
theorem C4_migrate_target_amended (mg : Migrator) (now : Nat) (t : String)
    (hWF : mg.WF) (ht : (t == "") = false)
    (hsucc : ∀ m ∈ mg.pending, (mg.runner.run_up m).success = true) :
    (mg.migrate now (some t)).results
        = (mg.pending.filter (fun m => pyLe m.version t)).map mg.runner.run_up
    ∧ (mg.migrate now (some t)).migrator.store.applied
        = mg.store.applied
          ++ (mg.pending.filter (fun m => pyLe m.version t)).map Migration.version
    ∧ (∀ m ∈ mg.pending, pyLt t m.version = true →
        dictGet (mg.migrate now (some t)).migrator.migrations m.version = some m
        ∧ (mg.migrate now (some t)).migrator.store.is_applied m.version = false) := by
  have hsplit := (List.takeWhile_append_dropWhile
    (p := fun m => pyLe m.version t) (l := mg.pending)).symm
  set A := mg.pending.takeWhile (fun m => pyLe m.version t) with hA
  set B := mg.pending.dropWhile (fun m => pyLe m.version t) with hB
  have hAfilter : A = mg.pending.filter (fun m => pyLe m.version t) :=
    takeWhile_eq_filter_sorted t mg.pending (pending_version_sorted mg hWF)
  have hAmem : ∀ m ∈ A, m ∈ mg.pending := fun m hm =>
    (List.takeWhile_sublist _).subset hm
  have hAok : ∀ m ∈ A, stopAt (some t) m = false
      ∧ (mg.runner.run_up m).success = true := by
    intro m hm
    rw [hA] at hm
    have hle : pyLe m.version t = true := by
      have hx := List.mem_takeWhile_imp hm
      exact hx
    rw [← hA] at hm
    have hlt : pyLt t m.version = false := by
      have : (!pyLt t m.version) = true := hle
      rw [← Bool.not_eq_true']
      rw [this]
    constructor
    · show (!(t == "") && pyLt t m.version) = false
      rw [hlt, Bool.and_false]
    · exact hsucc m (hAmem m hm)
  have hgo : migrateGo mg.runner (some t) now mg.pending mg.store mg.migrations
      = (A.map mg.runner.run_up, storeAfter A mg.store,
         catAfter now A mg.migrations) := by
    rw [hsplit, migrateGo_append_ok mg.runner (some t) now A hAok B mg.store
      mg.migrations]
    cases hBc : B with
    | nil => simp [migrateGo]
    | cons b bs =>
      have hble : pyLe b.version t = false :=
        dropWhile_cons_head _ mg.pending b bs (hB ▸ hBc)
      have hstop : stopAt (some t) b = true := by
        show (!(t == "") && pyLt t b.version) = true
        have hlt : pyLt t b.version = true := by
          have hx : (!pyLtb t.data b.version.data) = false := hble
          rw [Bool.not_eq_false'] at hx
          exact hx
        rw [ht, hlt]
        rfl
      rw [migrateGo_cons_stop mg.runner (some t) now b bs _ _ hstop]
      simp
  have h1 : (mg.migrate now (some t)).results
      = (migrateGo mg.runner (some t) now mg.pending mg.store mg.migrations).1 := rfl
  have h2 : (mg.migrate now (some t)).migrator.store
      = (migrateGo mg.runner (some t) now mg.pending mg.store mg.migrations).2.1 := rfl
  have h3 : (mg.migrate now (some t)).migrator.migrations
      = (migrateGo mg.runner (some t) now mg.pending mg.store mg.migrations).2.2 := rfl
  have hAnodup : (A.map Migration.version).Nodup :=
    List.Nodup.sublist (List.Sublist.map Migration.version
      (List.takeWhile_sublist _)) (pending_version_nodup mg hWF)
  have hstore : (storeAfter A mg.store).applied
      = mg.store.applied ++ A.map Migration.version :=
    storeAfter_applied A mg.store
      (fun m hm => (pending_mem mg hWF m (hAmem m hm)).2) hAnodup
  refine ⟨?_, ?_, ?_⟩
  · rw [h1, hgo, hAfilter]
  · rw [h2, hgo, hstore, hAfilter]
  · intro m hm hlt
    have hnotA : m.version ∉ A.map Migration.version := by
      intro hc
      rw [List.mem_map] at hc
      obtain ⟨m', hm', hv⟩ := hc
      rw [hA] at hm'
      have hle : pyLe m'.version t = true := by
        have hx := List.mem_takeWhile_imp hm'
        exact hx
      rw [hv] at hle
      have : pyLt t m.version = false := by
        have h5 : (!pyLt t m.version) = true := hle
        rw [← Bool.not_eq_true']
        rw [h5]
      rw [this] at hlt
      exact absurd hlt (by simp)
    constructor
    · rw [h3, hgo]
      rw [dictGet_catAfter_ne A mg.migrations now m.version hnotA]
      exact (pending_mem mg hWF m hm).1
    · rw [h2, hgo]
      show decide (m.version ∈ (storeAfter A mg.store).applied) = false
      rw [hstore, decide_eq_false_iff_not]
      intro hc
      rcases List.mem_append.mp hc with hc | hc
      · exact (pending_mem mg hWF m hm).2 hc
      · exact hnotA hc

/-- Witness for C4 (amended) at the catalog {001, 002, 003} with target
"002". -/
theorem C4_migrate_target_amended_witness :
    mgThreeOk.WF
    ∧ (("002" == "") = false)
    ∧ (∀ m ∈ mgThreeOk.pending, (mgThreeOk.runner.run_up m).success = true)
    ∧ (mgThreeOk.migrate 0 (some "002")).results
        = (mgThreeOk.pending.filter
            (fun m => pyLe m.version "002")).map mgThreeOk.runner.run_up :=
  ⟨by decide, by decide, by decide,
   (C4_migrate_target_amended mgThreeOk 0 "002" (by decide) (by decide)
     (by decide)).1⟩

/-! ### `rollback` loop lemmas -/

theorem rollbackGo_nil (runner : MigrationRunner) (steps i : Nat)
    (store : MigrationStore) (cat : Catalog) :
    rollbackGo runner steps i [] store cat = ([], store, cat) := by
  simp [rollbackGo]

theorem rollbackGo_stop (runner : MigrationRunner) (steps i : Nat)
    (l : List String) (store : MigrationStore) (cat : Catalog)
    (h : steps ≤ i) :
    rollbackGo runner steps i l store cat = ([], store, cat) := by
  cases l with
  | nil => simp [rollbackGo]
  | cons v rest => simp [rollbackGo, h]

theorem rollbackGo_cons_none (runner : MigrationRunner) (steps i : Nat)
    (v : String) (rest : List String) (store : MigrationStore) (cat : Catalog)
    (h1 : ¬ steps ≤ i) (h2 : dictGet cat v = none) :
    rollbackGo runner steps i (v :: rest) store cat
      = rollbackGo runner steps (i + 1) rest store cat := by
  simp [rollbackGo, h1, h2]

theorem rollbackGo_cons_some_succ (runner : MigrationRunner) (steps i : Nat)
    (v : String) (rest : List String) (store : MigrationStore) (cat : Catalog)
    (m : Migration) (h1 : ¬ steps ≤ i) (h2 : dictGet cat v = some m)
    (h3 : (runner.run_down m).success = true) :
    rollbackGo runner steps i (v :: rest) store cat
      = (runner.run_down m ::
          (rollbackGo runner steps (i + 1) rest (store.mark_rolled_back v)
            (setMigration cat v
              { m with status := MigrationStatus.rolled_back })).1,
         (rollbackGo runner steps (i + 1) rest (store.mark_rolled_back v)
            (setMigration cat v
              { m with status := MigrationStatus.rolled_back })).2) := by
  simp [rollbackGo, h1, h2, h3]

theorem rollbackGo_cons_some_fail (runner : MigrationRunner) (steps i : Nat)
    (v : String) (rest : List String) (store : MigrationStore) (cat : Catalog)
    (m : Migration) (h1 : ¬ steps ≤ i) (h2 : dictGet cat v = some m)
    (h3 : (runner.run_down m).success = false) :
    rollbackGo runner steps i (v :: rest) store cat
      = ([runner.run_down m], store,
         setMigration cat v { m with status := MigrationStatus.failed }) := by
  simp [rollbackGo, h1, h2, h3]

theorem rollbackGo_all_success (runner : MigrationRunner) (steps : Nat)
    (cat0 : Catalog)
    (hsucc : ∀ v m, dictGet cat0 v = some m →
      (runner.run_down m).success = true) :
    ∀ (l : List String) (i : Nat) (store : MigrationStore) (cat : Catalog),
      (∀ w ∈ l, dictGet cat w = dictGet cat0 w) →
      l.Nodup → store.applied.Nodup →
      (rollbackGo runner steps i l store cat).1
          = ((l.take (steps - i)).filterMap (dictGet cat0)).map runner.run_down
      ∧ (rollbackGo runner steps i l store cat).2.1.applied
          = store.applied.filter
              (fun w => decide (w ∉ attemptedOf cat0 (l.take (steps - i)))) := by
  intro l
  induction l with
  | nil =>
    intro i store cat _ _ _
    rw [rollbackGo_nil, List.take_nil]
    constructor
    · rfl
    · simp [attemptedOf]
  | cons v rest ih =>
    intro i store cat hagree hlnodup hsnodup
    rw [List.nodup_cons] at hlnodup
    by_cases hstop : steps ≤ i
    · rw [rollbackGo_stop runner steps i _ store cat hstop,
        Nat.sub_eq_zero_of_le hstop, List.take_zero]
      constructor
      · rfl
      · simp [attemptedOf]
    · have hiv : steps - i = (steps - (i + 1)) + 1 := by omega
      rw [hiv, List.take_succ_cons]
      have hagreev := hagree v (List.mem_cons_self v rest)
      cases hv : dictGet cat0 v with
      | none =>
        have hcatv : dictGet cat v = none := by rw [hagreev, hv]
        rw [rollbackGo_cons_none runner steps i v rest store cat hstop hcatv]
        have ihh := ih (i + 1) store cat
          (fun w hw => hagree w (List.mem_cons_of_mem v hw)) hlnodup.2 hsnodup
        have hatt : attemptedOf cat0 (v :: rest.take (steps - (i + 1)))
            = attemptedOf cat0 (rest.take (steps - (i + 1))) := by
          unfold attemptedOf
          rw [List.filter_cons, hv]
          simp
        constructor
        · rw [ihh.1, List.filterMap_cons_none hv]
        · rw [ihh.2, hatt]
      | some m =>
        have hcatv : dictGet cat v = some m := by rw [hagreev, hv]
        have hrs := hsucc v m hv
        rw [rollbackGo_cons_some_succ runner steps i v rest store cat m
          hstop hcatv hrs]
        have hagree' : ∀ w ∈ rest,
            dictGet (setMigration cat v
              { m with status := MigrationStatus.rolled_back }) w
              = dictGet cat0 w := by
          intro w hw
          rw [dictGet_setMigration_ne _ _ _ _ fun hc =>
            hlnodup.1 (by rw [← hc]; exact hw)]
          exact hagree w (List.mem_cons_of_mem v hw)
        have hsnodup' : (store.mark_rolled_back v).applied.Nodup :=
          List.Nodup.erase v hsnodup
        have ihh := ih (i + 1) (store.mark_rolled_back v)
          (setMigration cat v { m with status := MigrationStatus.rolled_back })
          hagree' hlnodup.2 hsnodup'
        have hatt : attemptedOf cat0 (v :: rest.take (steps - (i + 1)))
            = v :: attemptedOf cat0 (rest.take (steps - (i + 1))) := by
          unfold attemptedOf
          rw [List.filter_cons, hv]
          simp
        constructor
        · rw [ihh.1, List.filterMap_cons_some hv, List.map_cons]
        · rw [ihh.2, hatt]
          show ((store.applied.erase v).filter _) = _
          rw [List.Nodup.erase_eq_filter hsnodup v, List.filter_filter]
          apply List.filter_congr
          intro w _
          by_cases h1 : w = v
          · simp [h1]
          · by_cases h2 : w ∈ attemptedOf cat0 (rest.take (steps - (i + 1))) <;>
              simp [h1, h2]

/-- C3 counterexample: ledger ["001", "999"] with only 001 in the catalog.
The walk starts at the orphaned 999; the skip still consumes the single step
slot (`if i >= steps: break` is checked before the catalog lookup), so
`rollback(1)` attempts nothing and 001 stays applied — the claim requires the
skip not to consume the slot, hence 001 to be rolled back. -/
theorem C3_counterexample :
    (mgOrphan.rollback 1).results = []
    ∧ (mgOrphan.rollback 1).migrator.store.applied = ["001", "999"] :=
  ⟨by decide, by decide⟩

/-- C3 amended: `rollback(steps)` walks the applied versions in
reverse-application order, but an applied version absent from the catalog,
though skipped, still consumes its walk slot: `steps` bounds the number of
walked entries, so (with succeeding backward executions) the attempted
rollbacks are exactly the catalog-present versions among the first `steps`
walked entries, in walk order, and exactly those leave the ledger. -/
theorem C3_rollback_steps_amended (mg : Migrator) (steps : Nat)
    (hnodup : mg.store.applied.Nodup)
    (hsucc : ∀ p ∈ mg.migrations, (mg.runner.run_down p.2).success = true) :
    (mg.rollback steps).results
      = ((mg.store.applied.reverse.take steps).filterMap
          (dictGet mg.migrations)).map mg.runner.run_down
    ∧ (mg.rollback steps).migrator.store.applied
      = mg.store.applied.filter
          (fun w => decide (w ∉ attemptedOf mg.migrations
            (mg.store.applied.reverse.take steps))) := by
  have hsucc' : ∀ v m, dictGet mg.migrations v = some m →
      (mg.runner.run_down m).success = true := fun v m hv =>
    hsucc (v, m) (mem_of_dictGet_eq_some _ _ _ hv)
  have key := rollbackGo_all_success mg.runner steps mg.migrations hsucc'
    mg.store.applied.reverse 0 mg.store mg.migrations
    (fun _ _ => rfl) (List.nodup_reverse.mpr hnodup) hnodup
  rw [Nat.sub_zero] at key
  have h1 : (mg.rollback steps).results
      = (rollbackGo mg.runner steps 0 mg.store.get_applied.reverse mg.store
          mg.migrations).1 := rfl
  have h2 : (mg.rollback steps).migrator.store
      = (rollbackGo mg.runner steps 0 mg.store.get_applied.reverse mg.store
          mg.migrations).2.1 := rfl
  constructor
  · rw [h1]
    exact key.1
  · rw [h2]
    exact key.2

/-- Witness for C3 (amended) at the fully applied catalog {001, 002, 003}
with two steps: 003 then 002 are rolled back, in that order. -/
theorem C3_rollback_steps_amended_witness :
    mgAllApplied.store.applied.Nodup
    ∧ (∀ p ∈ mgAllApplied.migrations,
        (mgAllApplied.runner.run_down p.2).success = true)
    ∧ (mgAllApplied.rollback 2).results
        = ((mgAllApplied.store.applied.reverse.take 2).filterMap
            (dictGet mgAllApplied.migrations)).map mgAllApplied.runner.run_down :=
  ⟨by decide, by decide,
   (C3_rollback_steps_amended mgAllApplied 2 (by decide) (by decide)).1⟩

/-! ### `rollback_to` loop lemmas -/

theorem rollbackToGo_nil (runner : MigrationRunner) (target : String)
    (cat : Catalog) (store : MigrationStore) :
    rollbackToGo runner target cat [] store = ([], store) := by
  simp [rollbackToGo]

theorem rollbackToGo_cons_stop (runner : MigrationRunner) (target : String)
    (cat : Catalog) (v : String) (rest : List String) (store : MigrationStore)
    (h : pyLe v target = true) :
    rollbackToGo runner target cat (v :: rest) store = ([], store) := by
  simp [rollbackToGo, h]

theorem rollbackToGo_cons_none (runner : MigrationRunner) (target : String)
    (cat : Catalog) (v : String) (rest : List String) (store : MigrationStore)
    (h1 : pyLe v target = false) (h2 : dictGet cat v = none) :
    rollbackToGo runner target cat (v :: rest) store
      = rollbackToGo runner target cat rest store := by
  simp [rollbackToGo, h1, h2]

theorem rollbackToGo_cons_some (runner : MigrationRunner) (target : String)
    (cat : Catalog) (v : String) (rest : List String) (store : MigrationStore)
    (m : Migration) (h1 : pyLe v target = false) (h2 : dictGet cat v = some m) :
    rollbackToGo runner target cat (v :: rest) store
      = (runner.run_down m ::
          (rollbackToGo runner target cat rest
            (if (runner.run_down m).success then store.mark_rolled_back v
             else store)).1,
         (rollbackToGo runner target cat rest
            (if (runner.run_down m).success then store.mark_rolled_back v
             else store)).2) := by
  simp [rollbackToGo, h1, h2]

theorem rollbackToGo_spec (runner : MigrationRunner) (target : String)
    (cat : Catalog) :
    ∀ (l : List String) (store : MigrationStore),
      store.applied.Nodup →
      (rollbackToGo runner target cat l store).1
          = ((l.takeWhile fun v => pyLt target v).filterMap (dictGet cat)).map
              runner.run_down
      ∧ (rollbackToGo runner target cat l store).2.applied
          = store.applied.filter
              (fun w => decide (w ∉ rolledOf runner cat
                (l.takeWhile fun v => pyLt target v))) := by
  intro l
  induction l with
  | nil =>
    intro store _
    rw [rollbackToGo_nil]
    constructor
    · rfl
    · simp [rolledOf]
  | cons v rest ih =>
    intro store hsnodup
    by_cases hle : pyLe v target = true
    · have hlt : pyLt target v = false := by
        have hx : (!pyLtb target.data v.data) = true := hle
        rw [Bool.not_eq_true'] at hx
        exact hx
      rw [rollbackToGo_cons_stop runner target cat v rest store hle,
        List.takeWhile_cons, hlt]
      constructor
      · simp
      · simp [rolledOf]
    · rw [Bool.not_eq_true] at hle
      have hlt : pyLt target v = true := by
        have hx : (!pyLtb target.data v.data) = false := hle
        rw [Bool.not_eq_false'] at hx
        exact hx
      rw [List.takeWhile_cons, hlt]
      simp only [if_true]
      cases hv : dictGet cat v with
      | none =>
        rw [rollbackToGo_cons_none runner target cat v rest store hle hv]
        have ihh := ih store hsnodup
        have hroll : rolledOf runner cat
            (v :: rest.takeWhile fun v => pyLt target v)
            = rolledOf runner cat (rest.takeWhile fun v => pyLt target v) := by
          unfold rolledOf
          rw [List.filter_cons, hv]
          simp
        constructor
        · rw [ihh.1, List.filterMap_cons_none hv]
        · rw [ihh.2, hroll]
      | some m =>
        rw [rollbackToGo_cons_some runner target cat v rest store m hle hv]
        by_cases hrs : (runner.run_down m).success = true
        · rw [if_pos hrs]
          have hsnodup' : (store.mark_rolled_back v).applied.Nodup :=
            List.Nodup.erase v hsnodup
          have ihh := ih (store.mark_rolled_back v) hsnodup'
          have hroll : rolledOf runner cat
              (v :: rest.takeWhile fun v => pyLt target v)
              = v :: rolledOf runner cat (rest.takeWhile fun v => pyLt target v) := by
            unfold rolledOf
            rw [List.filter_cons, hv]
            simp [hrs]
          constructor
          · rw [ihh.1, List.filterMap_cons_some hv, List.map_cons]
          · rw [ihh.2, hroll]
            show ((store.applied.erase v).filter _) = _
            rw [List.Nodup.erase_eq_filter hsnodup v, List.filter_filter]
            apply List.filter_congr
            intro w _
            by_cases h1 : w = v
            · simp [h1]
            · by_cases h2 : w ∈ rolledOf runner cat
                (rest.takeWhile fun v => pyLt target v) <;> simp [h1, h2]
        · rw [Bool.not_eq_true] at hrs
          rw [if_neg (by rw [hrs]; exact Bool.false_ne_true)]
          have ihh := ih store hsnodup
          have hroll : rolledOf runner cat
              (v :: rest.takeWhile fun v => pyLt target v)
              = rolledOf runner cat (rest.takeWhile fun v => pyLt target v) := by
            unfold rolledOf
            rw [List.filter_cons, hv]
            simp [hrs]
          constructor
          · rw [ihh.1, List.filterMap_cons_some hv, List.map_cons]
          · rw [ihh.2, hroll]

theorem filterMap_length_isSome {α β : Type} (f : α → Option β) :
    ∀ l : List α, (∀ a ∈ l, (f a).isSome = true) →
      (l.filterMap f).length = l.length := by
  intro l
  induction l with
  | nil => intro _; rfl
  | cons a l ih =>
    intro h
    cases hfa : f a with
    | none =>
      have := h a (List.mem_cons_self a l)
      rw [hfa] at this
      exact absurd this (by simp)
    | some b =>
      rw [List.filterMap_cons_some hfa, List.length_cons, List.length_cons,
        ih fun x hx => h x (List.mem_cons_of_mem a hx)]

/-- C2 counterexample: with 002's backward body raising and ledger
["001", "002"], `rollback_to("")` walks 002 (failure) and then still attempts
001 (success): two results come back and 001 — a remaining walked version the
claim requires to be left untouched — is removed from the ledger.  A batch
via `rollback_to` therefore does not halt at the first failed result. -/
theorem C2_counterexample :
    (mgDownFail.rollback_to "").results.length = 2
    ∧ (mgDownFail.rollback_to "").results.map MigrationResult.success
        = [false, true]
    ∧ (mgDownFail.rollback_to "").migrator.store.applied = ["002"] :=
  ⟨by decide, by decide, by decide⟩

/-- C2 amended: `rollback_to(target)` does not halt at a failed
`MigrationResult`: it attempts the backward execution of every catalog-present
walked version strictly greater than the target, continuing past failures;
a version whose backward execution fails stays in the Ledger (only successes
are removed).  Fail-fast holds for `migrate` (C1), not for `rollback_to`. -/
theorem C2_rollback_to_no_failfast (mg : Migrator) (target : String)
    (hnodup : mg.store.applied.Nodup) :
    (mg.rollback_to target).results
        = ((mg.store.applied.reverse.takeWhile fun v => pyLt target v).filterMap
            (dictGet mg.migrations)).map mg.runner.run_down
    ∧ (∀ v m, v ∈ mg.store.applied →
        dictGet mg.migrations v = some m →
        (mg.runner.run_down m).success = false →
        v ∈ (mg.rollback_to target).migrator.store.applied) := by
  have key := rollbackToGo_spec mg.runner target mg.migrations
    mg.store.applied.reverse mg.store hnodup
  have h1 : (mg.rollback_to target).results
      = (rollbackToGo mg.runner target mg.migrations
          mg.store.applied.reverse mg.store).1 := rfl
  have h2 : (mg.rollback_to target).migrator.store
      = (rollbackToGo mg.runner target mg.migrations
          mg.store.applied.reverse mg.store).2 := rfl
  constructor
  · rw [h1]
    exact key.1
  · intro v m hv hm hfail
    have hstep : (mg.rollback_to target).migrator.store.applied
        = mg.store.applied.filter
            (fun w => decide (w ∉ rolledOf mg.runner mg.migrations
              (mg.store.applied.reverse.takeWhile fun v => pyLt target v))) := by
      rw [h2]
      exact key.2
    rw [hstep]
    apply List.mem_filter.mpr
    refine ⟨hv, ?_⟩
    rw [decide_eq_true_eq]
    intro hc
    unfold rolledOf at hc
    have hpred := List.of_mem_filter hc
    simp only [hm] at hpred
    rw [hfail] at hpred
    exact absurd hpred (by simp)

/-- Witness for C2 (amended) on the ledger ["001", "002"] where 002's
backward body raises: both walked versions are attempted and the failed 002
stays in the ledger. -/
theorem C2_rollback_to_no_failfast_witness :
    mgDownFail.store.applied.Nodup
    ∧ "002" ∈ mgDownFail.store.applied
    ∧ dictGet mgDownFail.migrations "002" = some (exDownFail "002")
    ∧ (mgDownFail.runner.run_down (exDownFail "002")).success = false
    ∧ "002" ∈ (mgDownFail.rollback_to "").migrator.store.applied :=
  ⟨by decide, by decide, by decide, by decide,
   (C2_rollback_to_no_failfast mgDownFail "" (by decide)).2 "002"
     (exDownFail "002") (by decide) (by decide) (by decide)⟩

/-- C5: with every applied version present in the catalog, `rollback_to`
walks the applied versions most-recent-first, attempts a backward execution
for exactly the walked versions strictly greater than the target (all of
them: the result count equals the walked count), removes each from the
ledger on success, stops at the first walked version at or below the target
— so versions at or below the target stay applied — and fires no hooks. -/
theorem C5_rollback_to_walk (mg : Migrator) (target : String)
    (hnodup : mg.store.applied.Nodup)
    (hAll : ∀ v ∈ mg.store.applied, (dictGet mg.migrations v).isSome = true) :
    (mg.rollback_to target).results
        = ((mg.store.applied.reverse.takeWhile fun v => pyLt target v).filterMap
            (dictGet mg.migrations)).map mg.runner.run_down
    ∧ (mg.rollback_to target).results.length
        = (mg.store.applied.reverse.takeWhile fun v => pyLt target v).length
    ∧ (mg.rollback_to target).migrator.store.applied
        = mg.store.applied.filter
            (fun w => decide (w ∉ rolledOf mg.runner mg.migrations
              (mg.store.applied.reverse.takeWhile fun v => pyLt target v)))
    ∧ (∀ v ∈ mg.store.applied, pyLe v target = true →
        v ∈ (mg.rollback_to target).migrator.store.applied)
    ∧ (mg.rollback_to target).emitted = [] := by
  have key := rollbackToGo_spec mg.runner target mg.migrations
    mg.store.applied.reverse mg.store hnodup
  have h1 : (mg.rollback_to target).results
      = (rollbackToGo mg.runner target mg.migrations
          mg.store.applied.reverse mg.store).1 := rfl
  have h2 : (mg.rollback_to target).migrator.store
      = (rollbackToGo mg.runner target mg.migrations
          mg.store.applied.reverse mg.store).2 := rfl
  have htw : ∀ v ∈ (mg.store.applied.reverse.takeWhile fun v => pyLt target v),
      v ∈ mg.store.applied := by
    intro v hv
    exact List.mem_reverse.mp ((List.takeWhile_sublist _).subset hv)
  refine ⟨?_, ?_, ?_, ?_, rfl⟩
  · rw [h1]
    exact key.1
  · rw [h1, key.1, List.length_map]
    exact filterMap_length_isSome (dictGet mg.migrations) _
      fun v hv => hAll v (htw v hv)
  · rw [h2]
    exact key.2
  · intro v hv hle
    have hstep : (mg.rollback_to target).migrator.store.applied
        = mg.store.applied.filter
            (fun w => decide (w ∉ rolledOf mg.runner mg.migrations
              (mg.store.applied.reverse.takeWhile fun v => pyLt target v))) := by
      rw [h2]
      exact key.2
    rw [hstep]
    apply List.mem_filter.mpr
    refine ⟨hv, ?_⟩
    rw [decide_eq_true_eq]
    intro hc
    unfold rolledOf at hc
    have hvtw := List.mem_of_mem_filter hc
    have hlt : pyLtb target.data v.data = true := by
      have hx := List.mem_takeWhile_imp hvtw
      exact hx
    have hle' : pyLe v target = false := by
      have hx : (!pyLtb target.data v.data) = (!true) := by rw [hlt]
      rw [Bool.not_true] at hx
      exact hx
    rw [hle'] at hle
    exact absurd hle (by simp)

/-- Witness for C5 at the fully applied catalog {001, 002, 003} with target
"001": 003 and 002 are rolled back, 001 stays applied, no hook fires. -/
theorem C5_rollback_to_walk_witness :
    mgAllApplied.store.applied.Nodup
    ∧ (∀ v ∈ mgAllApplied.store.applied,
        (dictGet mgAllApplied.migrations v).isSome = true)
    ∧ (mgAllApplied.rollback_to "001").results.length
        = (mgAllApplied.store.applied.reverse.takeWhile
            fun v => pyLt "001" v).length
    ∧ ("001" ∈ (mgAllApplied.rollback_to "001").migrator.store.applied)
    ∧ (mgAllApplied.rollback_to "001").emitted = [] :=
  ⟨by decide, by decide,
   (C5_rollback_to_walk mgAllApplied "001" (by decide) (by decide)).2.1,
   (C5_rollback_to_walk mgAllApplied "001" (by decide) (by decide)).2.2.2.1
     "001" (by decide) (by decide),
   (C5_rollback_to_walk mgAllApplied "001" (by decide) (by decide)).2.2.2.2⟩

/-! ### Slug lemmas (`generate`) -/

theorem subAux_true_drop : ∀ l : List Char,
    subAux true l = subAux false (l.dropWhile fun d => !isSlugChar d) := by
  intro l
  induction l with
  | nil => rfl
  | cons c cs ih =>
    by_cases hc : isSlugChar c = true
    · rw [List.dropWhile_cons, if_neg (by rw [hc]; simp)]
      simp [subAux, hc]
    · rw [Bool.not_eq_true] at hc
      rw [List.dropWhile_cons, if_pos (by rw [hc]; simp)]
      rw [show subAux true (c :: cs) = subAux true cs by simp [subAux, hc]]
      exact ih

theorem subRuns_nil : subRuns [] = [] := rfl

theorem subRuns_cons_alnum (c : Char) (cs : List Char)
    (hc : isSlugChar c = true) : subRuns (c :: cs) = c :: subRuns cs := by
  simp [subRuns, subAux, hc]

theorem subRuns_cons_junk (c : Char) (cs : List Char)
    (hc : isSlugChar c = false) :
    subRuns (c :: cs)
      = '_' :: subRuns (cs.dropWhile fun d => !isSlugChar d) := by
  show subAux false (c :: cs) = _
  rw [show subAux false (c :: cs) = '_' :: subAux true cs by simp [subAux, hc]]
  rw [subAux_true_drop]
  rfl

theorem subRuns_append_alnum :
    ∀ t r : List Char, (∀ x ∈ t, isSlugChar x = true) →
      subRuns (t ++ r) = t ++ subRuns r := by
  intro t
  induction t with
  | nil => intro r _; rfl
  | cons a t ih =>
    intro r ha
    rw [List.cons_append,
      subRuns_cons_alnum a _ (ha a (List.mem_cons_self a t)),
      ih r fun x hx => ha x (List.mem_cons_of_mem a hx), List.cons_append]

theorem alnumRuns_nil : alnumRuns [] = [] := by
  simp [alnumRuns]

theorem alnumRuns_cons_alnum (c : Char) (cs : List Char)
    (hc : isSlugChar c = true) :
    alnumRuns (c :: cs)
      = (c :: cs.takeWhile isSlugChar) ::
          alnumRuns ((cs.dropWhile isSlugChar).dropWhile fun d => !isSlugChar d) := by
  rw [alnumRuns]
  simp [hc]

theorem alnumRuns_cons_junk (c : Char) (cs : List Char)
    (hc : isSlugChar c = false) :
    alnumRuns (c :: cs) = alnumRuns (cs.dropWhile fun d => !isSlugChar d) := by
  rw [alnumRuns]
  simp [hc]

theorem alnum_ne_sep (c : Char) (hc : isSlugChar c = true) :
    (c == '_') = false := by
  by_cases h : c = '_'
  · rw [h] at hc
    exact absurd hc (by decide)
  · exact beq_eq_false_iff_ne.mpr h

theorem dropWhile_sep_all_ne :
    ∀ x : List Char, (∀ a ∈ x, (a == '_') = false) →
      x.dropWhile (· == '_') = x := by
  intro x hx
  cases x with
  | nil => rfl
  | cons a z =>
    rw [List.dropWhile_cons,
      if_neg (by rw [hx a (List.mem_cons_self a z)]; simp)]

theorem dropWhile_append_pos {p : Char → Bool} :
    ∀ (x y : List Char) (c : Char) (r : List Char),
      x.dropWhile p = c :: r → (x ++ y).dropWhile p = c :: r ++ y := by
  intro x
  induction x with
  | nil => intro y c r h; simp at h
  | cons a z ih =>
    intro y c r h
    rw [List.dropWhile_cons] at h
    by_cases ha : p a = true
    · rw [if_pos ha] at h
      rw [List.cons_append, List.dropWhile_cons, if_pos ha]
      exact ih y c r h
    · rw [if_neg ha] at h
      rw [List.cons_append, List.dropWhile_cons, if_neg ha]
      rw [← h]
      simp

theorem dropWhile_sep_reverse_ne_nil (z : List Char) (a : Char)
    (ha : a ∈ z) (hne : (a == '_') = false) :
    z.reverse.dropWhile (· == '_') ≠ [] := by
  intro hc
  have hall := List.dropWhile_eq_nil_iff.mp hc
  have := hall a (List.mem_reverse.mpr ha)
  rw [hne] at this
  exact absurd this (by simp)

theorem intercalate_sep_nil :
    List.intercalate ['_'] ([] : List (List Char)) = [] := by
  simp [List.intercalate]

theorem intercalate_sep_single (t : List Char) :
    List.intercalate ['_'] [t] = t := by
  simp [List.intercalate]

theorem intercalate_sep_cons (t : List Char) (xs : List (List Char))
    (hxs : xs ≠ []) :
    List.intercalate ['_'] (t :: xs)
      = t ++ '_' :: List.intercalate ['_'] xs := by
  cases xs with
  | nil => exact absurd rfl hxs
  | cons y ys =>
    simp [List.intercalate, List.intersperse]

theorem stripSep_nil : stripSep [] = [] := rfl

theorem stripSep_cons_sep (l : List Char) : stripSep ('_' :: l) = stripSep l := by
  unfold stripSep
  rw [List.dropWhile_cons, if_pos (by simp)]

theorem stripSep_of_head_ne (a : Char) (z : List Char) (ha : (a == '_') = false) :
    stripSep (a :: z) = ((a :: z).reverse.dropWhile (· == '_')).reverse := by
  unfold stripSep
  rw [List.dropWhile_cons, if_neg (by rw [ha]; simp)]

theorem stripSep_all_alnum (t : List Char)
    (ht : ∀ x ∈ t, isSlugChar x = true) : stripSep t = t := by
  unfold stripSep
  rw [dropWhile_sep_all_ne t fun a ha => alnum_ne_sep a (ht a ha),
    dropWhile_sep_all_ne t.reverse
      (fun a ha => alnum_ne_sep a (ht a (List.mem_reverse.mp ha))),
    List.reverse_reverse]

theorem stripSep_append_of_trail (t z : List Char) (a : Char) (t' : List Char)
    (htc : t = a :: t') (ht : ∀ x ∈ t, isSlugChar x = true)
    (c : Char) (r : List Char)
    (hz : z.reverse.dropWhile (· == '_') = c :: r) :
    stripSep (t ++ z) = t ++ (c :: r).reverse := by
  rw [htc, List.cons_append]
  rw [stripSep_of_head_ne a (t' ++ z)
    (alnum_ne_sep a (ht a (by rw [htc]; exact List.mem_cons_self a t')))]
  rw [← List.cons_append, ← htc]
  rw [List.reverse_append]
  rw [dropWhile_append_pos z.reverse t.reverse c r hz]
  rw [List.reverse_append, List.reverse_reverse]

theorem stripSep_append_sep (t : List Char) (a : Char) (t' : List Char)
    (htc : t = a :: t') (ht : ∀ x ∈ t, isSlugChar x = true) :
    stripSep (t ++ ['_']) = t := by
  rw [htc, List.cons_append]
  rw [stripSep_of_head_ne a (t' ++ ['_'])
    (alnum_ne_sep a (ht a (by rw [htc]; exact List.mem_cons_self a t')))]
  rw [← List.cons_append, ← htc]
  rw [List.reverse_append, List.reverse_singleton, List.singleton_append,
    List.dropWhile_cons, if_pos (by simp),
    dropWhile_sep_all_ne t.reverse
      (fun x hx => alnum_ne_sep x (ht x (List.mem_reverse.mp hx))),
    List.reverse_reverse]

theorem stripSep_subRuns_bounded :
    ∀ (n : Nat) (l : List Char), l.length ≤ n →
      stripSep (subRuns l) = List.intercalate ['_'] (alnumRuns l) := by
  intro n
  induction n with
  | zero =>
    intro l hl
    have hnil : l = [] := List.length_eq_zero.mp (Nat.le_zero.mp hl)
    rw [hnil, subRuns_nil, stripSep_nil, alnumRuns_nil, intercalate_sep_nil]
  | succ n ih =>
    intro l hl
    cases l with
    | nil => rw [subRuns_nil, stripSep_nil, alnumRuns_nil, intercalate_sep_nil]
    | cons c cs =>
      rw [List.length_cons] at hl
      have hl' : cs.length ≤ n := by omega
      by_cases hc : isSlugChar c = true
      · have htalnum : ∀ x ∈ c :: cs.takeWhile isSlugChar,
            isSlugChar x = true := by
          intro x hx
          rcases List.mem_cons.mp hx with heq | hx
          · rw [heq]; exact hc
          · have hxx := List.mem_takeWhile_imp hx
            exact hxx
        have hsub : subRuns (c :: cs)
            = (c :: cs.takeWhile isSlugChar)
                ++ subRuns (cs.dropWhile isSlugChar) := by
          conv_lhs => rw [show c :: cs
            = (c :: cs.takeWhile isSlugChar) ++ cs.dropWhile isSlugChar by
              rw [List.cons_append, List.takeWhile_append_dropWhile]]
          exact subRuns_append_alnum _ _ htalnum
        rw [hsub, alnumRuns_cons_alnum c cs hc]
        cases hrc : cs.dropWhile isSlugChar with
        | nil =>
          rw [subRuns_nil, List.append_nil,
            show List.dropWhile (fun d => !isSlugChar d) ([] : List Char)
              = [] from rfl,
            alnumRuns_nil, intercalate_sep_single]
          exact stripSep_all_alnum _ htalnum
        | cons d r₂ =>
          have hd : isSlugChar d = false :=
            dropWhile_cons_head isSlugChar cs d r₂ hrc
          rw [subRuns_cons_junk d r₂ hd,
            show List.dropWhile (fun d => !isSlugChar d) (d :: r₂)
              = r₂.dropWhile (fun d => !isSlugChar d) by
              rw [List.dropWhile_cons,
                if_pos (show (!isSlugChar d) = true by rw [hd]; rfl)]]
          cases hr₂c : r₂.dropWhile (fun d => !isSlugChar d) with
          | nil =>
            rw [subRuns_nil, alnumRuns_nil, intercalate_sep_single]
            exact stripSep_append_sep _ c _ rfl htalnum
          | cons e r₃ =>
            have he : isSlugChar e = true := by
              have hx := dropWhile_cons_head (fun d => !isSlugChar d) r₂ e r₃ hr₂c
              have hx' : (!isSlugChar e) = false := hx
              rw [Bool.not_eq_false'] at hx'
              exact hx'
            have hlen : (e :: r₃).length ≤ n := by
              have h1 : (e :: r₃).length ≤ r₂.length := by
                rw [← hr₂c]
                exact (List.dropWhile_sublist _).length_le
              have h3 : (d :: r₂).length ≤ cs.length := by
                rw [← hrc]
                exact (List.dropWhile_sublist _).length_le
              rw [List.length_cons] at h3
              omega
            have ihh := ih (e :: r₃) hlen
            rw [subRuns_cons_alnum e r₃ he] at ihh ⊢
            cases hzc : (e :: subRuns r₃).reverse.dropWhile (· == '_') with
            | nil =>
              exact absurd hzc (dropWhile_sep_reverse_ne_nil _ e
                (List.mem_cons_self e _) (alnum_ne_sep e he))
            | cons c' r' =>
              have hstrip : stripSep (e :: subRuns r₃) = (c' :: r').reverse := by
                rw [stripSep_of_head_ne e _ (alnum_ne_sep e he), hzc]
              have hz : ('_' :: e :: subRuns r₃).reverse.dropWhile (· == '_')
                  = c' :: (r' ++ ['_']) := by
                rw [List.reverse_cons,
                  dropWhile_append_pos _ _ c' r' hzc]
                rfl
              rw [stripSep_append_of_trail _ _ c _ rfl htalnum c'
                (r' ++ ['_']) hz]
              have hruns_ne : alnumRuns (e :: r₃) ≠ [] := by
                rw [alnumRuns_cons_alnum e r₃ he]
                simp
              rw [intercalate_sep_cons _ _ hruns_ne, ← ihh, hstrip]
              congr 1
              rw [List.reverse_cons, List.reverse_append]
              simp
      · rw [Bool.not_eq_true] at hc
        rw [subRuns_cons_junk c cs hc, alnumRuns_cons_junk c cs hc,
          stripSep_cons_sep]
        exact ih (cs.dropWhile fun d => !isSlugChar d)
          (le_trans (List.dropWhile_sublist _).length_le hl')

/-- C9: `generate(name)` returns the concatenation of the (wall-clock,
sortable) timestamp, one separator, and the normalized slug of the name —
the maximal alphanumeric runs of the lowercased name joined by single
separators, so every maximal run of non-alphanumeric characters collapses to
one separator and no separator leads or trails; on "Add Age Column" this
yields `<timestamp>_add_age_column`. -/
theorem C9_generate_slug (ts name : String) :
    generate ts name = ts ++ "_" ++ slugSpec name
    ∧ generate "20250101120000" "Add Age Column"
        = "20250101120000_add_age_column" := by
  constructor
  · show ts ++ "_" ++ slug name = ts ++ "_" ++ slugSpec name
    have hs : slug name = slugSpec name := by
      show (⟨stripSep (subRuns (lowerString name).data)⟩ : String)
          = ⟨List.intercalate ['_'] (alnumRuns (lowerString name).data)⟩
      rw [stripSep_subRuns_bounded (lowerString name).data.length
        (lowerString name).data (le_refl _)]
    rw [hs]
  · decide
